import Mathlib

/-!
Verification of the cell_type_mapper / hierarchical_mapping sources.

Shallow embedding of:
* `cell_by_gene/utils.py` (`convert_to_cpm`)
* `type_assignment/election.py` (`tally_votes`, `choose_node`,
  `run_type_assignment`)
* `type_assignment/matching.py` (`assemble_query_data`)
* `anndata_iterator/anndata_iterator.py` (`CSRRowIterator`)

Numeric data is modelled over `ℚ` (exact arithmetic); numpy arrays are
lists of rows; HDF5-backed lookups are modelled as explicit arguments.
-/

/-- The denominator used by `convert_to_cpm`:
`denom = np.where(row_sums > 0.0, row_sums, 1.)`. -/
def cpm_denom (row : List ℚ) : ℚ :=
  if row.sum > 0 then row.sum else 1

/-- `convert_to_cpm` from `cell_by_gene/utils.py`: each row of the
cell-by-gene array is rescaled to `1e6 * x / Σx`, with a denominator of 1
substituted for non-positive row sums. -/
def convert_to_cpm (data : List (List ℚ)) : List (List ℚ) :=
  data.map (fun row => row.map (fun x => 1000000 * x / cpm_denom row))

theorem sum_map_mul_const (k : ℚ) (l : List ℚ) :
    (l.map (fun x => k * x)).sum = k * l.sum := by
  induction l with
  | nil => simp
  | cons a t ih => simp [ih, mul_add]

theorem sum_zero_of_nonneg (l : List ℚ) (hnn : ∀ x ∈ l, 0 ≤ x)
    (hs : l.sum = 0) : ∀ x ∈ l, x = 0 := by
  induction l with
  | nil => simp
  | cons a t ih =>
    have ha : 0 ≤ a := hnn a (by simp)
    have ht : ∀ x ∈ t, 0 ≤ x := fun x hx => hnn x (List.mem_cons_of_mem _ hx)
    have htsum : 0 ≤ t.sum := List.sum_nonneg ht
    have hsum : a + t.sum = 0 := by simpa using hs
    have ha0 : a = 0 := by linarith
    have ht0 : t.sum = 0 := by linarith
    intro x hx
    rcases List.mem_cons.mp hx with h | h
    · simpa [h] using ha0
    · exact ih ht ht0 x h

theorem cpm_row_scale (row : List ℚ) (k : ℚ) (hk : 0 < k)
    (hnn : ∀ x ∈ row, 0 ≤ x) :
    (row.map (fun x => k * x)).map
        (fun x => 1000000 * x / cpm_denom (row.map (fun y => k * y))) =
      row.map (fun x => 1000000 * x / cpm_denom row) := by
  rw [List.map_map]
  apply List.map_congr_left
  intro x hx
  by_cases hpos : row.sum > 0
  · have hsum : (row.map (fun y => k * y)).sum = k * row.sum :=
      sum_map_mul_const k row
    have hkpos : (row.map (fun y => k * y)).sum > 0 := by
      rw [hsum]; positivity
    have hne : row.sum ≠ 0 := ne_of_gt hpos
    have hkne : k ≠ 0 := ne_of_gt hk
    have hd1 : cpm_denom (row.map (fun y => k * y)) = k * row.sum := by
      unfold cpm_denom
      rw [hsum, if_pos (by positivity)]
    have hd2 : cpm_denom row = row.sum := by
      unfold cpm_denom
      rw [if_pos hpos]
    simp only [Function.comp, hd1, hd2]
    field_simp
    ring
  · have hs0 : row.sum = 0 := by
      have := List.sum_nonneg hnn
      linarith [lt_or_eq_of_le this, not_lt.mp hpos]
    have hx0 : x = 0 := sum_zero_of_nonneg row hnn hs0 x hx
    simp [Function.comp, hx0]

/-- C6: scaling one row of the input by a positive constant `k` before the
raw→CPM conversion leaves the output of `convert_to_cpm` unchanged
(exactly, in rational arithmetic), for nonnegative (raw-count) data. -/
theorem C6_cpm_row_scaling_invariant
    (data : List (List ℚ)) (i : ℕ) (k : ℚ) (hk : 0 < k)
    (hnn : ∀ x ∈ data.getD i [], 0 ≤ x) :
    convert_to_cpm (data.set i ((data.getD i []).map (fun x => k * x))) =
      convert_to_cpm data := by
  by_cases hi : i < data.length
  · unfold convert_to_cpm
    rw [List.map_set]
    have hrow : data.getD i [] = data.get ⟨i, hi⟩ := by
      rw [List.getD_eq_getElem _ _ hi]
      simp
    apply List.ext_getElem
    · simp
    · intro n hn hn2
      by_cases hni : n = i
      · subst hni
        rw [List.getElem_set_self (by simpa using hn)]
        have := cpm_row_scale (data.getD n []) k hk hnn
        simp only [List.getElem_map]
        rw [List.getD_eq_getElem _ _ hi] at this ⊢
        simpa using this
      · rw [List.getElem_set_ne (fun h => hni h.symm)]
  · have hset : data.set i ((data.getD i []).map (fun x => k * x)) = data :=
      List.set_eq_of_length_le (by omega)
    rw [hset]

/-- C6 witness. -/
theorem C6_cpm_row_scaling_invariant_witness :
    convert_to_cpm
        ([[1, 3], [2, 2]].set 0 (([[1, 3], [2, 2]].getD 0 []).map
          (fun x => (5 : ℚ) * x))) =
      convert_to_cpm [[1, 3], [2, 2]] :=
  C6_cpm_row_scaling_invariant [[1, 3], [2, 2]] 0 5 (by norm_num)
    (by intro x hx; simp at hx; rcases hx with h | h <;> simp [h])

/-- C9: a row of nonnegative entries whose sum is zero is left unchanged
(as an all-zero row) by `convert_to_cpm`, and the denominator the
conversion divides by is never zero for any row. -/
theorem C9_cpm_zero_row_total
    (data : List (List ℚ)) (i : ℕ)
    (hnn : ∀ x ∈ data.getD i [], 0 ≤ x)
    (hs : (data.getD i []).sum = 0) :
    (convert_to_cpm data).getD i [] = data.getD i [] ∧
      (∀ x ∈ data.getD i [], x = 0) ∧
      (∀ row : List ℚ, cpm_denom row ≠ 0) := by
  have hz : ∀ x ∈ data.getD i [], x = 0 :=
    sum_zero_of_nonneg _ hnn hs
  refine ⟨?_, hz, ?_⟩
  · by_cases hi : i < data.length
    · unfold convert_to_cpm
      rw [List.getD_eq_getElem _ _ (by simpa using hi),
        List.getD_eq_getElem _ _ hi]
      simp only [List.getElem_map]
      have hrow : data.getD i [] = data[i] := by
        rw [List.getD_eq_getElem _ _ hi]
      conv_rhs => rw [← List.map_id data[i]]
      apply List.map_congr_left
      intro x hx
      have : x = 0 := hz x (by rw [hrow]; exact hx)
      simp [this]
    · unfold convert_to_cpm
      rw [List.getD_eq_default _ _ (by simpa using Nat.le_of_not_lt hi),
        List.getD_eq_default _ _ (Nat.le_of_not_lt hi)]
  · intro row
    unfold cpm_denom
    split
    · next h => exact ne_of_gt h
    · norm_num

/-- C9 witness. -/
theorem C9_cpm_zero_row_total_witness :
    (convert_to_cpm [[0, 0], [2, 2]]).getD 0 [] = [[0, 0], [2, 2]].getD 0 [] ∧
      (∀ x ∈ ([[0, 0], [2, 2]] : List (List ℚ)).getD 0 [], x = 0) ∧
      (∀ row : List ℚ, cpm_denom row ≠ 0) :=
  C9_cpm_zero_row_total [[0, 0], [2, 2]] 0
    (by intro x hx; simp at hx; simp [hx])
    (by norm_num)

/-- Round half to even (the semantics of numpy's `np.round`), returning an
integer. -/
def npRound (x : ℚ) : ℤ :=
  if x - Int.floor x < 1/2 then Int.floor x
  else if 1/2 < x - Int.floor x then Int.floor x + 1
  else if Int.floor x % 2 = 0 then Int.floor x else Int.floor x + 1

/-- The bootstrap sample size computed in `tally_votes`:
`n_bootstrap = np.round(bootstrap_factor*n_markers).astype(int)`.
There is no lower clamp in the source. -/
def n_bootstrap_of (bootstrap_factor : ℚ) (n_markers : ℕ) : ℤ :=
  npRound (bootstrap_factor * n_markers)

theorem npRound_nonneg (x : ℚ) (hx : 0 ≤ x) : 0 ≤ npRound x := by
  have hf : (0 : ℤ) ≤ Int.floor x := by
    rw [Int.le_floor]
    exact_mod_cast hx
  unfold npRound
  split
  · exact hf
  · split
    · omega
    · split
      · exact hf
      · omega

theorem npRound_le_int (x : ℚ) (n : ℤ) (hx : x ≤ n) : npRound x ≤ n := by
  have hf : Int.floor x ≤ n := by
    calc Int.floor x ≤ Int.floor (n : ℚ) := Int.floor_le_floor hx
    _ = n := Int.floor_intCast n
  unfold npRound
  split
  · exact hf
  · next hlt =>
    have hfs : Int.floor x < n := by
      rcases lt_or_eq_of_le hf with h | h
      · exact h
      · exfalso
        have : x - Int.floor x ≥ 1/2 := le_of_not_lt hlt
        have hxn : (n : ℚ) ≤ x := by
          have h2 := Int.floor_le x
          rw [h] at h2
          exact h2
        have : x = n := le_antisymm hx hxn
        rw [this] at hlt
        simp [Int.floor_intCast] at hlt
    split
    · omega
    · split
      · exact hf
      · omega

/-- C4 counterexample: with one marker and `bootstrap_factor = 1/4`, the
sample size computed by `tally_votes` is `round(0.25) = 0`, violating the
claimed lower bound `1 ≤ m`. -/
theorem C4_counterexample :
    n_bootstrap_of (1/4) 1 = 0 ∧ ¬ (1 ≤ n_bootstrap_of (1/4) 1) := by
  constructor
  · unfold n_bootstrap_of npRound
    norm_num [Int.floor_eq_iff]
  · unfold n_bootstrap_of npRound
    norm_num [Int.floor_eq_iff]

/-- C4 (amended): each bootstrap iteration draws
`m = round(bootstrap_factor * n_markers)` markers (numpy
round-half-to-even), and for `0 ≤ bootstrap_factor ≤ 1` this satisfies
`0 ≤ m ≤ n_markers`; `m` can be `0` when
`bootstrap_factor * n_markers` rounds to zero. -/
theorem C4_amended_bootstrap_size_bounds
    (bootstrap_factor : ℚ) (n_markers : ℕ)
    (h0 : 0 ≤ bootstrap_factor) (h1 : bootstrap_factor ≤ 1) :
    0 ≤ n_bootstrap_of bootstrap_factor n_markers ∧
      n_bootstrap_of bootstrap_factor n_markers ≤ n_markers := by
  constructor
  · exact npRound_nonneg _ (by positivity)
  · apply npRound_le_int
    push_cast
    nlinarith [Nat.cast_nonneg (α := ℚ) n_markers]

/-- C4 amended witness. -/
theorem C4_amended_bootstrap_size_bounds_witness :
    0 ≤ n_bootstrap_of (9/10) 4 ∧ n_bootstrap_of (9/10) 4 ≤ 4 :=
  C4_amended_bootstrap_size_bounds (9/10) 4 (by norm_num) (by norm_num)

/-- First index attaining the maximum of a list: the semantics of
`np.argmax` along an axis (`np.argmax` documents that ties return the
first occurrence). Returns 0 on the empty list. -/
def npArgmax {α : Type} [LinearOrder α] : List α → ℕ
  | [] => 0
  | [_] => 0
  | a :: b :: rest =>
    if a < (b :: rest).getD (npArgmax (b :: rest)) b
    then npArgmax (b :: rest) + 1
    else 0

theorem npArgmax_lt_length {α : Type} [LinearOrder α]
    (l : List α) (h : l ≠ []) : npArgmax l < l.length := by
  induction l with
  | nil => simp at h
  | cons a t ih =>
    cases t with
    | nil => simp [npArgmax]
    | cons b rest =>
      rw [npArgmax]
      split
      · have := ih (by simp)
        simpa using Nat.succ_lt_succ this
      · simp

theorem getD_default_irrel {α : Type} (l : List α) (j : ℕ)
    (hj : j < l.length) (d e : α) : l.getD j d = l.getD j e := by
  rw [List.getD_eq_getElem _ _ hj, List.getD_eq_getElem _ _ hj]

theorem npArgmax_is_max {α : Type} [LinearOrder α] (l : List α) (d : α) :
    ∀ j < l.length, l.getD j d ≤ l.getD (npArgmax l) d := by
  induction l with
  | nil => simp
  | cons a t ih =>
    cases t with
    | nil =>
      intro j hj
      have hj0 : j = 0 := Nat.lt_one_iff.mp (by simpa using hj)
      subst hj0
      simp [npArgmax]
    | cons b rest =>
      have hne : (b :: rest : List α) ≠ [] := by simp
      have hlt := npArgmax_lt_length (b :: rest) hne
      have hdflt : (b :: rest).getD (npArgmax (b :: rest)) b =
          (b :: rest).getD (npArgmax (b :: rest)) d :=
        getD_default_irrel _ _ hlt b d
      intro j hj
      rw [npArgmax]
      split
      · next hcond =>
        rw [hdflt] at hcond
        cases j with
        | zero =>
          simpa using le_of_lt hcond
        | succ i =>
          have hi : i < (b :: rest).length := by simpa using hj
          simpa using ih i hi
      · next hcond =>
        rw [hdflt] at hcond
        have hmax_le_a : (b :: rest).getD (npArgmax (b :: rest)) d ≤ a :=
          le_of_not_lt hcond
        cases j with
        | zero => simp
        | succ i =>
          have hi : i < (b :: rest).length := by simpa using hj
          have := ih i hi
          simpa using le_trans this hmax_le_a

theorem npArgmax_first_max {α : Type} [LinearOrder α] (l : List α) (d : α) :
    ∀ j < npArgmax l, l.getD j d < l.getD (npArgmax l) d := by
  induction l with
  | nil => simp [npArgmax]
  | cons a t ih =>
    cases t with
    | nil => simp [npArgmax]
    | cons b rest =>
      have hne : (b :: rest : List α) ≠ [] := by simp
      have hlt := npArgmax_lt_length (b :: rest) hne
      have hdflt : (b :: rest).getD (npArgmax (b :: rest)) b =
          (b :: rest).getD (npArgmax (b :: rest)) d :=
        getD_default_irrel _ _ hlt b d
      intro j hj
      rw [npArgmax] at hj ⊢
      split at hj
      · next hcond =>
        rw [if_pos hcond]
        cases j with
        | zero =>
          rw [hdflt] at hcond
          simpa using hcond
        | succ i =>
          have hi : i < npArgmax (b :: rest) := by omega
          simpa using ih i hi
      · next hcond => omega

/-- Column subset of one row: `row[:, chosen_idx]` applied rowwise. -/
def subsetCols (chosen : List ℕ) (row : List ℚ) : List ℚ :=
  chosen.map (fun c => row.getD c 0)

/-- Modelled from the spec: `correlation_nearest_neighbors` (the module
`utils/distance_utils.py` is not in the sources).  Per the spec it computes
the correlation of each query row against each baseline (reference) row and
records the argmax baseline row and the maximum correlation; the
correlation metric itself is abstracted as `corrFn`. -/
def correlation_nearest_neighbors
    (corrFn : List ℚ → List ℚ → ℚ)
    (baseline query : List (List ℚ)) : List (ℕ × ℚ) :=
  query.map (fun q =>
    let scores := baseline.map (fun b => corrFn q b)
    (npArgmax scores, scores.getD (npArgmax scores) 0))

/-- The per-cell vote and correlation accumulators of `tally_votes`. -/
structure VoteState where
  votes : List (List ℕ)
  corr_sum : List (List ℚ)
deriving Repr, DecidableEq

/-- `votes[query_idx, nearest_neighbors] += 1` for one query row. -/
def bumpVote (row : List ℕ) (j : ℕ) : List ℕ :=
  row.set j (row.getD j 0 + 1)

/-- `corr_sum[query_idx, nearest_neighbors] += corr_values` for one row. -/
def bumpCorr (row : List ℚ) (j : ℕ) (v : ℚ) : List ℚ :=
  row.set j (row.getD j 0 + v)

/-- One iteration of the bootstrap loop in `tally_votes`: draw a marker
subset (the RNG draw `rng.choice(marker_idx, n_bootstrap, replace=False)`
is modelled by `draws i n_bootstrap`, then sorted as in the source), subset
the columns of both arrays, find each query row's nearest reference row by
correlation, and increment that row's vote and correlation sum. -/
def vote_iteration
    (corrFn : List ℚ → List ℚ → ℚ)
    (draws : ℕ → ℕ → List ℕ)
    (query_gene_data reference_gene_data : List (List ℚ))
    (n_bootstrap : ℕ)
    (st : VoteState) (i : ℕ) : VoteState :=
  let chosen := List.insertionSort (· ≤ ·) (draws i n_bootstrap)
  let bootstrap_query := query_gene_data.map (subsetCols chosen)
  let bootstrap_reference := reference_gene_data.map (subsetCols chosen)
  let nn := correlation_nearest_neighbors corrFn
    bootstrap_reference bootstrap_query
  { votes := (st.votes.zip nn).map (fun p => bumpVote p.1 p.2.1),
    corr_sum := (st.corr_sum.zip nn).map (fun p => bumpCorr p.1 p.2.1 p.2.2) }

/-- `tally_votes` from `type_assignment/election.py`: runs
`bootstrap_iteration` bootstrap iterations, each drawing
`n_bootstrap = round(bootstrap_factor * n_markers)` markers, and
accumulates per-(query cell, reference row) vote counts and correlation
sums. -/
def tally_votes
    (corrFn : List ℚ → List ℚ → ℚ)
    (draws : ℕ → ℕ → List ℕ)
    (query_gene_data reference_gene_data : List (List ℚ))
    (bootstrap_factor : ℚ)
    (bootstrap_iteration : ℕ) : VoteState :=
  let n_markers := (query_gene_data.headD []).length
  let nb := (n_bootstrap_of bootstrap_factor n_markers).toNat
  let n_reference := reference_gene_data.length
  let init : VoteState :=
    { votes := query_gene_data.map (fun _ => List.replicate n_reference 0),
      corr_sum :=
        query_gene_data.map (fun _ => List.replicate n_reference 0) }
  (List.range bootstrap_iteration).foldl
    (vote_iteration corrFn draws query_gene_data reference_gene_data nb)
    init

/-- The selection step of `choose_node` (election.py lines 620-630): for
each query cell take `chosen_type = np.argmax(votes, axis=1)`,
`n_votes = votes[idx, chosen_type]`,
`vote_fractions = n_votes / bootstrap_iteration` and
`avg_corr = corr_sum[idx, chosen_type] / n_votes`.  Each output entry is
`(reference_types[winner], vote_fraction, avg_correlation)`.  Node
identifiers are generic in a linearly ordered type (the source uses
python strings under their lexicographic order). -/
def choose_node_from_votes {α : Type} [Inhabited α]
    (st : VoteState) (reference_types : List α)
    (bootstrap_iteration : ℕ) : List (α × ℚ × ℚ) :=
  (st.votes.zip st.corr_sum).map (fun p =>
    let w := npArgmax p.1
    let n_votes : ℕ := p.1.getD w 0
    (reference_types.getD w default,
     (n_votes : ℚ) / bootstrap_iteration,
     p.2.getD w 0 / (n_votes : ℚ)))

/-- `choose_node` from `type_assignment/election.py`: tally the bootstrap
votes, then select each query cell's winner by `np.argmax`. -/
def choose_node {α : Type} [Inhabited α]
    (corrFn : List ℚ → List ℚ → ℚ)
    (draws : ℕ → ℕ → List ℕ)
    (query_gene_data reference_gene_data : List (List ℚ))
    (reference_types : List α)
    (bootstrap_factor : ℚ)
    (bootstrap_iteration : ℕ) : List (α × ℚ × ℚ) :=
  choose_node_from_votes
    (tally_votes corrFn draws query_gene_data reference_gene_data
      bootstrap_factor bootstrap_iteration)
    reference_types bootstrap_iteration

theorem sum_set_add_one (l : List ℕ) (j : ℕ) (hj : j < l.length) :
    (l.set j (l.getD j 0 + 1)).sum = l.sum + 1 := by
  induction l generalizing j with
  | nil => simp at hj
  | cons a t ih =>
    cases j with
    | zero => simp [Nat.add_comm, Nat.add_assoc, Nat.add_left_comm]
    | succ i =>
      have hi : i < t.length := by simpa using hj
      simp only [List.set_cons_succ, List.getD_cons_succ, List.sum_cons,
        ih i hi]
      omega

theorem getD_le_sum (l : List ℕ) (j : ℕ) : l.getD j 0 ≤ l.sum := by
  induction l generalizing j with
  | nil => simp
  | cons a t ih =>
    cases j with
    | zero => simp
    | succ i =>
      simp only [List.getD_cons_succ, List.sum_cons]
      exact le_trans (ih i) (Nat.le_add_left _ _)

theorem vote_iteration_shape_sum
    (corrFn : List ℚ → List ℚ → ℚ) (draws : ℕ → ℕ → List ℕ)
    (query reference : List (List ℚ)) (nb i : ℕ) (st : VoteState)
    (hR : 1 ≤ reference.length)
    (hlen : st.votes.length = query.length)
    (hclen : st.corr_sum.length = query.length)
    (hrows : ∀ row ∈ st.votes, row.length = reference.length) :
    (vote_iteration corrFn draws query reference nb st i).votes.length
        = query.length ∧
      (vote_iteration corrFn draws query reference nb st i).corr_sum.length
        = query.length ∧
      (∀ row ∈ (vote_iteration corrFn draws query reference nb st i).votes,
        row.length = reference.length) ∧
      (∀ q, q < query.length →
        ((vote_iteration corrFn draws query reference nb st i).votes.getD
            q []).sum
          = (st.votes.getD q []).sum + 1) := by
  set chosen := List.insertionSort (· ≤ ·) (draws i nb) with hchosen
  set nn := correlation_nearest_neighbors corrFn
    (reference.map (subsetCols chosen)) (query.map (subsetCols chosen))
    with hnn
  have hnnlen : nn.length = query.length := by
    simp [hnn, correlation_nearest_neighbors]
  have hvi : (vote_iteration corrFn draws query reference nb st i).votes
      = (st.votes.zip nn).map (fun p => bumpVote p.1 p.2.1) := by
    simp only [vote_iteration]
  have hci : (vote_iteration corrFn draws query reference nb st i).corr_sum
      = (st.corr_sum.zip nn).map (fun p => bumpCorr p.1 p.2.1 p.2.2) := by
    simp only [vote_iteration]
  have hvlen :
      ((st.votes.zip nn).map (fun p => bumpVote p.1 p.2.1)).length
        = query.length := by
    simp [List.length_zip, hlen, hnnlen]
  refine ⟨by rw [hvi]; exact hvlen, ?_, ?_, ?_⟩
  · rw [hci]
    simp [List.length_zip, hclen, hnnlen]
  · intro row hrow
    rw [hvi] at hrow
    obtain ⟨p, hp, hrow⟩ := List.mem_map.mp hrow
    have hmem := List.of_mem_zip hp
    have := hrows p.1 hmem.1
    rw [← hrow]
    simpa [bumpVote] using this
  · intro q hq
    have hq1 : q < st.votes.length := by omega
    have hq2 : q < nn.length := by omega
    have hqz : q < (st.votes.zip nn).length := by
      rw [List.length_zip]
      omega
    have hqm : q < ((st.votes.zip nn).map
        (fun p => bumpVote p.1 p.2.1)).length := by
      simpa using hqz
    have hqmap : q < (query.map (subsetCols chosen)).length := by
      simpa using hq
    have hrowlen : st.votes[q].length = reference.length :=
      hrows _ (List.getElem_mem hq1)
    have hnn_q : nn[q].1
        = npArgmax ((reference.map (subsetCols chosen)).map
            (fun b => corrFn (query.map (subsetCols chosen))[q] b)) := by
      simp only [hnn, correlation_nearest_neighbors, List.getElem_map]
    have hscLen : ((reference.map (subsetCols chosen)).map
        (fun b => corrFn (query.map (subsetCols chosen))[q] b)).length
          = reference.length := by
      simp
    have hscNe : ((reference.map (subsetCols chosen)).map
        (fun b => corrFn (query.map (subsetCols chosen))[q] b)) ≠ [] := by
      intro hcon
      rw [hcon] at hscLen
      simp at hscLen
      omega
    have hnnq : nn[q].1 < reference.length := by
      rw [hnn_q, ← hscLen]
      exact npArgmax_lt_length _ hscNe
    have hj : nn[q].1 < st.votes[q].length := by omega
    rw [hvi, List.getD_eq_getElem _ _ hqm, List.getD_eq_getElem _ _ hq1]
    rw [List.getElem_map, List.getElem_zip]
    simpa [bumpVote] using sum_set_add_one st.votes[q] nn[q].1 hj

theorem vote_fold_shape_sum
    (corrFn : List ℚ → List ℚ → ℚ) (draws : ℕ → ℕ → List ℕ)
    (query reference : List (List ℚ)) (nb : ℕ)
    (hR : 1 ≤ reference.length) :
    ∀ (B : ℕ) (st : VoteState),
      st.votes.length = query.length →
      st.corr_sum.length = query.length →
      (∀ row ∈ st.votes, row.length = reference.length) →
      ((List.range B).foldl
          (vote_iteration corrFn draws query reference nb) st).votes.length
        = query.length ∧
      ((List.range B).foldl
          (vote_iteration corrFn draws query reference nb) st).corr_sum.length
        = query.length ∧
      (∀ row ∈ ((List.range B).foldl
          (vote_iteration corrFn draws query reference nb) st).votes,
        row.length = reference.length) ∧
      (∀ q, q < query.length →
        (((List.range B).foldl
            (vote_iteration corrFn draws query reference nb) st).votes.getD
            q []).sum
          = (st.votes.getD q []).sum + B) := by
  intro B
  induction B with
  | zero =>
    intro st h1 h2 h3
    exact ⟨h1, h2, h3, fun q _ => by simp⟩
  | succ n ih =>
    intro st h1 h2 h3
    rw [List.range_succ]
    simp only [List.foldl_append, List.foldl_cons, List.foldl_nil]
    obtain ⟨ih1, ih2, ih3, ih4⟩ := ih st h1 h2 h3
    obtain ⟨s1, s2, s3, s4⟩ := vote_iteration_shape_sum corrFn draws query
      reference nb n _ hR ih1 ih2 ih3
    refine ⟨s1, s2, s3, fun q hq => ?_⟩
    rw [s4 q hq, ih4 q hq]
    omega

theorem tally_votes_shape_sum
    (corrFn : List ℚ → List ℚ → ℚ) (draws : ℕ → ℕ → List ℕ)
    (query reference : List (List ℚ)) (factor : ℚ) (B : ℕ)
    (hR : 1 ≤ reference.length) :
    (tally_votes corrFn draws query reference factor B).votes.length
        = query.length ∧
      (tally_votes corrFn draws query reference factor B).corr_sum.length
        = query.length ∧
      (∀ row ∈ (tally_votes corrFn draws query reference factor B).votes,
        row.length = reference.length) ∧
      (∀ q, q < query.length →
        ((tally_votes corrFn draws query reference factor B).votes.getD
            q []).sum = B) := by
  unfold tally_votes
  set nb := (n_bootstrap_of factor (query.headD []).length).toNat with hnb
  set init : VoteState :=
    { votes := query.map (fun _ => List.replicate reference.length 0),
      corr_sum :=
        query.map (fun _ => List.replicate reference.length 0) } with hinit
  have h1 : init.votes.length = query.length := by simp [hinit]
  have h2 : init.corr_sum.length = query.length := by simp [hinit]
  have h3 : ∀ row ∈ init.votes, row.length = reference.length := by
    intro row hrow
    simp only [hinit, List.mem_map] at hrow
    obtain ⟨_, _, hrow⟩ := hrow
    simp [← hrow]
  obtain ⟨f1, f2, f3, f4⟩ :=
    vote_fold_shape_sum corrFn draws query reference nb hR B init h1 h2 h3
  refine ⟨f1, f2, f3, fun q hq => ?_⟩
  rw [f4 q hq]
  have hq0 : q < init.votes.length := by omega
  rw [List.getD_eq_getElem _ _ hq0]
  simp [hinit]

theorem choose_node_from_votes_getD {α : Type} [Inhabited α]
    (st : VoteState) (reference_types : List α) (B : ℕ) (q : ℕ)
    (hq : q < st.votes.length) (hc : q < st.corr_sum.length) :
    (choose_node_from_votes st reference_types B).getD q (default, 0, 0)
      = (reference_types.getD (npArgmax st.votes[q]) default,
         ((st.votes[q]).getD (npArgmax st.votes[q]) 0 : ℚ) / B,
         (st.corr_sum[q]).getD (npArgmax st.votes[q]) 0
           / ((st.votes[q]).getD (npArgmax st.votes[q]) 0 : ℚ)) := by
  have hqz : q < (st.votes.zip st.corr_sum).length := by
    rw [List.length_zip]
    omega
  have hqm : q < ((st.votes.zip st.corr_sum).map (fun p =>
      (reference_types.getD (npArgmax p.1) default,
       ((p.1.getD (npArgmax p.1) 0 : ℕ) : ℚ) / B,
       p.2.getD (npArgmax p.1) 0
         / ((p.1.getD (npArgmax p.1) 0 : ℕ) : ℚ)))).length := by
    simpa using hqz
  unfold choose_node_from_votes
  rw [List.getD_eq_getElem _ _ (by simpa using hqz)]
  rw [List.getElem_map, List.getElem_zip]

/-- C3: for every query cell, the vote counts accumulated by
`tally_votes` over all candidate reference rows sum exactly to
`bootstrap_iteration`, and the `bootstrapping_probability` returned by
`choose_node` lies in `[0, 1]`. -/
theorem C3_vote_sum_and_probability_bounds {α : Type} [Inhabited α]
    (corrFn : List ℚ → List ℚ → ℚ) (draws : ℕ → ℕ → List ℕ)
    (query reference : List (List ℚ)) (reference_types : List α)
    (factor : ℚ) (B : ℕ)
    (hB : 1 ≤ B) (hR : 1 ≤ reference.length)
    (q : ℕ) (hq : q < query.length) :
    ((tally_votes corrFn draws query reference factor B).votes.getD
        q []).sum = B ∧
      0 ≤ ((choose_node corrFn draws query reference reference_types
        factor B).getD q (default, 0, 0)).2.1 ∧
      ((choose_node corrFn draws query reference reference_types
        factor B).getD q (default, 0, 0)).2.1 ≤ 1 := by
  obtain ⟨t1, t2, t3, t4⟩ :=
    tally_votes_shape_sum corrFn draws query reference factor B hR
  have hq1 : q < (tally_votes corrFn draws query reference factor
      B).votes.length := by omega
  have hq2 : q < (tally_votes corrFn draws query reference factor
      B).corr_sum.length := by omega
  have hcn : choose_node corrFn draws query reference reference_types
        factor B
      = choose_node_from_votes
          (tally_votes corrFn draws query reference factor B)
          reference_types B := rfl
  have hentry := choose_node_from_votes_getD
    (tally_votes corrFn draws query reference factor B)
    reference_types B q hq1 hq2
  have hrow : (tally_votes corrFn draws query reference factor
      B).votes.getD q []
      = (tally_votes corrFn draws query reference factor B).votes[q] :=
    List.getD_eq_getElem _ _ hq1
  have hsum := t4 q hq
  refine ⟨hsum, ?_, ?_⟩
  · rw [hcn, hentry]
    positivity
  · rw [hcn, hentry]
    simp only
    rw [div_le_one (by exact_mod_cast hB)]
    have hle : ((tally_votes corrFn draws query reference factor
        B).votes[q]).getD
        (npArgmax ((tally_votes corrFn draws query reference factor
          B).votes[q])) 0 ≤ B := by
      calc ((tally_votes corrFn draws query reference factor
          B).votes[q]).getD
            (npArgmax ((tally_votes corrFn draws query reference factor
              B).votes[q])) 0
          ≤ ((tally_votes corrFn draws query reference factor
              B).votes[q]).sum := getD_le_sum _ _
        _ = B := by rw [← hrow]; exact hsum
    exact_mod_cast hle

/-- C3 witness. -/
theorem C3_vote_sum_and_probability_bounds_witness :
    ((tally_votes (fun _ _ => 0) (fun _ _ => [0]) [[1, 2]] [[3, 4]]
        1 1).votes.getD 0 []).sum = 1 ∧
      0 ≤ ((choose_node (fun _ _ => 0) (fun _ _ => [0]) [[1, 2]] [[3, 4]]
        ([7] : List ℕ) 1 1).getD 0 (default, 0, 0)).2.1 ∧
      ((choose_node (fun _ _ => 0) (fun _ _ => [0]) [[1, 2]] [[3, 4]]
        ([7] : List ℕ) 1 1).getD 0 (default, 0, 0)).2.1 ≤ 1 :=
  C3_vote_sum_and_probability_bounds (fun _ _ => 0) (fun _ _ => [0])
    [[1, 2]] [[3, 4]] [7] 1 1 (by decide) (by decide) 0 (by decide)

/-- C8: whenever `bootstrap_iteration ≥ 1` and there is at least one
candidate reference row, the `np.argmax` winner of each query cell's vote
row has at least one vote, so `choose_node`'s division
`corr_sum[winner] / n_votes` never divides by zero. -/
theorem C8_winner_has_a_vote
    (corrFn : List ℚ → List ℚ → ℚ) (draws : ℕ → ℕ → List ℕ)
    (query reference : List (List ℚ)) (factor : ℚ) (B : ℕ)
    (hB : 1 ≤ B) (hR : 1 ≤ reference.length)
    (q : ℕ) (hq : q < query.length) :
    1 ≤ ((tally_votes corrFn draws query reference factor B).votes.getD
        q []).getD
        (npArgmax ((tally_votes corrFn draws query reference factor
          B).votes.getD q [])) 0 := by
  obtain ⟨t1, t2, t3, t4⟩ :=
    tally_votes_shape_sum corrFn draws query reference factor B hR
  have hsum := t4 q hq
  by_contra hcon
  push_neg at hcon
  have h0 : ((tally_votes corrFn draws query reference factor
      B).votes.getD q []).getD
      (npArgmax ((tally_votes corrFn draws query reference factor
        B).votes.getD q [])) 0 = 0 := by omega
  have hall : ∀ x ∈ (tally_votes corrFn draws query reference factor
      B).votes.getD q [], x = 0 := by
    intro x hx
    obtain ⟨i, hi, hxi⟩ := List.mem_iff_getElem.mp hx
    have hmax := npArgmax_is_max
      ((tally_votes corrFn draws query reference factor B).votes.getD q [])
      0 i hi
    rw [List.getD_eq_getElem _ _ hi] at hmax
    omega
  have hz : ((tally_votes corrFn draws query reference factor
      B).votes.getD q []).sum = 0 := List.sum_eq_zero hall
  omega

/-- C8 witness. -/
theorem C8_winner_has_a_vote_witness :
    1 ≤ ((tally_votes (fun _ _ => 0) (fun _ _ => [0]) [[1, 2]] [[3, 4]]
        1 2).votes.getD 0 []).getD
        (npArgmax ((tally_votes (fun _ _ => 0) (fun _ _ => [0]) [[1, 2]]
          [[3, 4]] 1 2).votes.getD 0 [])) 0 :=
  C8_winner_has_a_vote (fun _ _ => 0) (fun _ _ => [0]) [[1, 2]] [[3, 4]]
    1 2 (by decide) (by decide) 0 (by decide)

/-- Stated from the spec's words (§4.6 step 4), for comparison with the
source: the winner is the reference type with the maximum vote count,
ties broken first by the higher correlation sum and then by the
lexicographically smallest child id. -/
def spec_winner {α : Type} [LinearOrder α] [Inhabited α]
    (votes : List ℕ) (corr_sum : List ℚ)
    (reference_types : List α) : α :=
  let idxs := List.range votes.length
  let maxV := votes.foldl max 0
  let tiedV := idxs.filter (fun i => votes.getD i 0 = maxV)
  let corrs := tiedV.map (fun i => corr_sum.getD i 0)
  let maxC := corrs.foldl max (corrs.headD 0)
  let tiedC := tiedV.filter (fun i => corr_sum.getD i 0 = maxC)
  let names := tiedC.map (fun i => reference_types.getD i default)
  names.foldl min (names.headD default)

/-- The correlation function used in the C1 counterexample (node
identifiers are naturals: 0 for child A, 1 for child B). -/
def cexCorrFn : List ℚ → List ℚ → ℚ := fun _ b =>
  if b = [1] then 5 else if b = [3] then 1 else if b = [2] then 2
  else if b = [4] then 7 else 0

/-- The marker draws used in the C1 counterexample: iteration 0 samples
marker column 0, iteration 1 samples marker column 1. -/
def cexDraws : ℕ → ℕ → List ℕ := fun i _ => if i = 0 then [0] else [1]

/-- C1 counterexample: a query cell whose two bootstrap iterations split
the vote 1-1 between the two reference types, with the correlation sum
favoring type 1.  The spec's tie-break rule picks type 1, but the source's
`np.argmax` picks the lower index, type 0, and no correlation-sum
tie-break exists in the code. -/
theorem C1_counterexample :
    (tally_votes cexCorrFn cexDraws [[10, 20]] [[1, 2], [3, 4]]
        (1/2) 2).votes = [[1, 1]] ∧
      (tally_votes cexCorrFn cexDraws [[10, 20]] [[1, 2], [3, 4]]
        (1/2) 2).corr_sum = [[5, 7]] ∧
      spec_winner [1, 1] [5, 7] ([0, 1] : List ℕ) = 1 ∧
      (choose_node cexCorrFn cexDraws [[10, 20]] [[1, 2], [3, 4]]
        ([0, 1] : List ℕ) (1/2) 2).map Prod.fst = [0] ∧
      (0 : ℕ) ≠ 1 := by
  have htally : tally_votes cexCorrFn cexDraws [[10, 20]] [[1, 2], [3, 4]]
      (1/2) 2 = { votes := [[1, 1]], corr_sum := [[5, 7]] } := by
    unfold tally_votes
    norm_num [List.range_succ, vote_iteration, cexDraws, cexCorrFn,
      List.insertionSort, List.orderedInsert, subsetCols,
      correlation_nearest_neighbors, npArgmax, bumpVote, bumpCorr,
      List.replicate, List.set]
  refine ⟨by rw [htally], by rw [htally], ?_, ?_, by decide⟩
  · unfold spec_winner
    norm_num [List.range_succ, List.filter, max_def, min_def]
  · have hcn : choose_node cexCorrFn cexDraws [[10, 20]] [[1, 2], [3, 4]]
        ([0, 1] : List ℕ) (1/2) 2
        = choose_node_from_votes
            (tally_votes cexCorrFn cexDraws [[10, 20]] [[1, 2], [3, 4]]
              (1/2) 2) ([0, 1] : List ℕ) 2 := rfl
    rw [hcn, htally]
    unfold choose_node_from_votes
    norm_num [npArgmax]

/-- C1 (amended): for each query cell, `choose_node` returns the
reference type at the first index attaining the maximum vote count
(`np.argmax` first-occurrence tie-break; the correlation sum plays no
role in tie-breaking), together with
`bootstrapping_probability = votes[winner] / bootstrap_iteration` and
`avg_correlation = corr_sum[winner] / votes[winner]`. -/
theorem C1_amended_winner_is_first_argmax {α : Type} [Inhabited α]
    (st : VoteState) (reference_types : List α) (B : ℕ) (q : ℕ)
    (hq : q < st.votes.length) (hc : q < st.corr_sum.length) :
    (choose_node_from_votes st reference_types B).getD q (default, 0, 0)
        = (reference_types.getD (npArgmax st.votes[q]) default,
           ((st.votes[q]).getD (npArgmax st.votes[q]) 0 : ℚ) / B,
           (st.corr_sum[q]).getD (npArgmax st.votes[q]) 0
             / ((st.votes[q]).getD (npArgmax st.votes[q]) 0 : ℚ)) ∧
      (∀ j < (st.votes[q]).length,
        (st.votes[q]).getD j 0
          ≤ (st.votes[q]).getD (npArgmax st.votes[q]) 0) ∧
      (∀ j < npArgmax st.votes[q],
        (st.votes[q]).getD j 0
          < (st.votes[q]).getD (npArgmax st.votes[q]) 0) := by
  refine ⟨choose_node_from_votes_getD st reference_types B q hq hc,
    ?_, ?_⟩
  · intro j hj
    exact npArgmax_is_max (st.votes[q]) 0 j hj
  · intro j hj
    exact npArgmax_first_max (st.votes[q]) 0 j hj

/-- C1 amended witness. -/
theorem C1_amended_winner_is_first_argmax_witness :
    (choose_node_from_votes
          { votes := [[2, 2]], corr_sum := [[1, 4]] }
          ([6, 9] : List ℕ) 4).getD 0 (default, 0, 0)
        = (([6, 9] : List ℕ).getD
            (npArgmax (([[2, 2]] : List (List ℕ))[0])) default,
           ((([[2, 2]] : List (List ℕ))[0]).getD
             (npArgmax (([[2, 2]] : List (List ℕ))[0])) 0 : ℚ) / 4,
           (([[1, 4]] : List (List ℚ))[0]).getD
             (npArgmax (([[2, 2]] : List (List ℕ))[0])) 0
             / ((([[2, 2]] : List (List ℕ))[0]).getD
               (npArgmax (([[2, 2]] : List (List ℕ))[0])) 0 : ℚ)) ∧
      (∀ j < (([[2, 2]] : List (List ℕ))[0]).length,
        (([[2, 2]] : List (List ℕ))[0]).getD j 0
          ≤ (([[2, 2]] : List (List ℕ))[0]).getD
            (npArgmax (([[2, 2]] : List (List ℕ))[0])) 0) ∧
      (∀ j < npArgmax (([[2, 2]] : List (List ℕ))[0]),
        (([[2, 2]] : List (List ℕ))[0]).getD j 0
          < (([[2, 2]] : List (List ℕ))[0]).getD
            (npArgmax (([[2, 2]] : List (List ℕ))[0])) 0) :=
  C1_amended_winner_is_first_argmax
    { votes := [[2, 2]], corr_sum := [[1, 4]] } [6, 9] 4 0
    (by decide) (by decide)

/-- Python-dict assignment `m[k] = v` on an insertion-ordered association
list: overwrite in place if the key exists, else append. -/
def assocSet {α β : Type} [DecidableEq α]
    (m : List (α × β)) (k : α) (v : β) : List (α × β) :=
  if m.any (fun kv => kv.1 = k)
  then m.map (fun kv => if kv.1 = k then (k, v) else kv)
  else m ++ [(k, v)]

/-- The `leaf_to_type` dict built by `assemble_query_data`
(matching.py lines 49-52): for each immediate child (in sorted order),
for each of its descendant leaves, `leaf_to_type[leaf] = child`. -/
def buildLeafToType {α : Type} [DecidableEq α]
    (tree_as_leaves : α → List α)
    (children_sorted : List α) : List (α × α) :=
  children_sorted.foldl (fun acc child =>
    (tree_as_leaves child).foldl
      (fun acc2 leaf => assocSet acc2 leaf child) acc) []

/-- The output of `assemble_query_data`. -/
structure AssembledQuery (α : Type) where
  query_data : List (List ℚ)
  reference_data : List (List ℚ)
  reference_types : List α

/-- `assemble_query_data` from
`hierarchical_mapping/type_assignment/matching.py`.  The taxonomy-tree
and marker-cache HDF5 accesses are modelled as explicit arguments:
`immediate_children` is the list of children of `parent_node`,
`tree_as_leaves` maps a child to its descendant leaves,
`mean_profile_lookup` maps a leaf to its mean expression profile, and
`reference_markers` / `query_markers` are the marker-gene index lists
read from the cache.  One reference row is built per key of
`leaf_to_type` (i.e. per descendant leaf), each labeled with the
immediate child it descends from. -/
def assemble_query_data {α : Type} [LinearOrder α] [Inhabited α]
    (full_query_data : List (List ℚ))
    (mean_profile_lookup : α → List ℚ)
    (tree_as_leaves : α → List α)
    (immediate_children : List α)
    (reference_markers query_markers : List ℕ) : AssembledQuery α :=
  let children_sorted := List.insertionSort (· ≤ ·) immediate_children
  let leaf_to_type := buildLeafToType tree_as_leaves children_sorted
  let leaves_sorted :=
    List.insertionSort (· ≤ ·) (leaf_to_type.map Prod.fst)
  { query_data := full_query_data.map (subsetCols query_markers),
    reference_data := leaves_sorted.map (fun leaf =>
      subsetCols reference_markers (mean_profile_lookup leaf)),
    reference_types := leaves_sorted.map (fun leaf =>
      (((leaf_to_type.find? (fun kv => kv.1 = leaf)).map
        Prod.snd).getD default)) }

theorem assocSet_keys {α β : Type} [DecidableEq α]
    (m : List (α × β)) (k : α) (v : β) :
    (assocSet m k v).map Prod.fst
      = if k ∈ m.map Prod.fst then m.map Prod.fst
        else m.map Prod.fst ++ [k] := by
  unfold assocSet
  by_cases h : m.any (fun kv => kv.1 = k)
  · rw [if_pos h]
    have hk : k ∈ m.map Prod.fst := by
      obtain ⟨kv, hkv, hdec⟩ := List.any_eq_true.mp h
      have : kv.1 = k := by simpa using hdec
      exact this ▸ List.mem_map_of_mem Prod.fst hkv
    rw [if_pos hk, List.map_map]
    apply List.map_congr_left
    intro kv _
    by_cases hkk : kv.1 = k
    · simp [Function.comp, hkk]
    · simp [Function.comp, hkk]
  · rw [if_neg h]
    have hk : k ∉ m.map Prod.fst := by
      intro hcon
      obtain ⟨kv, hkv, hkv2⟩ := List.mem_map.mp hcon
      exact h (List.any_eq_true.mpr ⟨kv, hkv, by simpa using hkv2⟩)
    rw [if_neg hk]
    simp

theorem assocSet_keys_nodup {α β : Type} [DecidableEq α]
    (m : List (α × β)) (k : α) (v : β)
    (h : (m.map Prod.fst).Nodup) :
    ((assocSet m k v).map Prod.fst).Nodup := by
  rw [assocSet_keys]
  by_cases hk : k ∈ m.map Prod.fst
  · rw [if_pos hk]
    exact h
  · rw [if_neg hk]
    apply List.Nodup.append h (List.nodup_singleton k)
    intro a ha hb
    have hak : a = k := by simpa using hb
    exact hk (hak ▸ ha)

theorem assocSet_mem_keys {α β : Type} [DecidableEq α]
    (m : List (α × β)) (k : α) (v : β) (a : α) :
    a ∈ (assocSet m k v).map Prod.fst
      ↔ a ∈ m.map Prod.fst ∨ a = k := by
  rw [assocSet_keys]
  by_cases hk : k ∈ m.map Prod.fst
  · rw [if_pos hk]
    constructor
    · exact fun h => Or.inl h
    · rintro (h | h)
      · exact h
      · exact h ▸ hk
  · rw [if_neg hk]
    simp

theorem assocSet_values {α β : Type} [DecidableEq α]
    (m : List (α × β)) (k : α) (v : β) (kv : α × β)
    (h : kv ∈ assocSet m k v) : kv.2 = v ∨ kv ∈ m := by
  unfold assocSet at h
  by_cases hc : m.any (fun kv => kv.1 = k)
  · rw [if_pos hc] at h
    obtain ⟨kv0, hkv0, hkv⟩ := List.mem_map.mp h
    by_cases hkk : kv0.1 = k
    · left
      rw [if_pos hkk] at hkv
      rw [← hkv]
    · right
      rw [if_neg hkk] at hkv
      exact hkv ▸ hkv0
  · rw [if_neg hc] at h
    rcases List.mem_append.mp h with h | h
    · exact Or.inr h
    · left
      have : kv = (k, v) := by simpa using h
      rw [this]

theorem leafFold_keys_nodup {α : Type} [DecidableEq α] (child : α)
    (leaves : List α) :
    ∀ acc : List (α × α), (acc.map Prod.fst).Nodup →
      ((leaves.foldl (fun acc2 leaf => assocSet acc2 leaf child)
        acc).map Prod.fst).Nodup := by
  induction leaves with
  | nil => intro acc h; simpa using h
  | cons leaf t ih =>
    intro acc h
    simpa using ih (assocSet acc leaf child)
      (assocSet_keys_nodup acc leaf child h)

theorem leafFold_mem_keys {α : Type} [DecidableEq α] (child : α)
    (leaves : List α) (a : α) :
    ∀ acc : List (α × α),
      (a ∈ (leaves.foldl (fun acc2 leaf => assocSet acc2 leaf child)
          acc).map Prod.fst
        ↔ a ∈ acc.map Prod.fst ∨ a ∈ leaves) := by
  induction leaves with
  | nil => intro acc; simp
  | cons leaf t ih =>
    intro acc
    rw [List.foldl_cons, ih (assocSet acc leaf child),
      assocSet_mem_keys]
    simp only [List.mem_cons]
    tauto

theorem leafFold_values {α : Type} [DecidableEq α] (child : α)
    (leaves : List α) (kv : α × α) :
    ∀ acc : List (α × α),
      kv ∈ leaves.foldl (fun acc2 leaf => assocSet acc2 leaf child) acc →
      kv.2 = child ∨ kv ∈ acc := by
  induction leaves with
  | nil => intro acc h; exact Or.inr (by simpa using h)
  | cons leaf t ih =>
    intro acc h
    rw [List.foldl_cons] at h
    rcases ih (assocSet acc leaf child) h with h2 | h2
    · exact Or.inl h2
    · exact assocSet_values acc leaf child kv h2

theorem buildFold_keys_nodup {α : Type} [DecidableEq α]
    (tree_as_leaves : α → List α) (children : List α) :
    ∀ acc : List (α × α), (acc.map Prod.fst).Nodup →
      (((children.foldl (fun acc child =>
          (tree_as_leaves child).foldl
            (fun acc2 leaf => assocSet acc2 leaf child) acc)
        acc)).map Prod.fst).Nodup := by
  induction children with
  | nil => intro acc h; simpa using h
  | cons c t ih =>
    intro acc h
    simpa using ih _ (leafFold_keys_nodup c (tree_as_leaves c) acc h)

theorem buildFold_mem_keys {α : Type} [DecidableEq α]
    (tree_as_leaves : α → List α) (children : List α) (a : α) :
    ∀ acc : List (α × α),
      (a ∈ ((children.foldl (fun acc child =>
          (tree_as_leaves child).foldl
            (fun acc2 leaf => assocSet acc2 leaf child) acc)
        acc)).map Prod.fst
        ↔ a ∈ acc.map Prod.fst
          ∨ ∃ c ∈ children, a ∈ tree_as_leaves c) := by
  induction children with
  | nil => intro acc; simp
  | cons c t ih =>
    intro acc
    rw [List.foldl_cons, ih _, leafFold_mem_keys]
    simp only [List.mem_cons]
    constructor
    · rintro ((h | h) | ⟨c2, hc2, h⟩)
      · exact Or.inl h
      · exact Or.inr ⟨c, Or.inl rfl, h⟩
      · exact Or.inr ⟨c2, Or.inr hc2, h⟩
    · rintro (h | ⟨c2, (hc2 | hc2), h⟩)
      · exact Or.inl (Or.inl h)
      · exact Or.inl (Or.inr (hc2 ▸ h))
      · exact Or.inr ⟨c2, hc2, h⟩

theorem buildFold_values {α : Type} [DecidableEq α]
    (tree_as_leaves : α → List α) (children : List α) (kv : α × α) :
    ∀ acc : List (α × α),
      kv ∈ (children.foldl (fun acc child =>
          (tree_as_leaves child).foldl
            (fun acc2 leaf => assocSet acc2 leaf child) acc)
        acc) →
      kv.2 ∈ children ∨ kv ∈ acc := by
  induction children with
  | nil => intro acc h; exact Or.inr (by simpa using h)
  | cons c t ih =>
    intro acc h
    rw [List.foldl_cons] at h
    rcases ih _ h with h2 | h2
    · exact Or.inl (List.mem_cons_of_mem _ h2)
    · rcases leafFold_values c (tree_as_leaves c) kv acc h2 with h3 | h3
      · exact Or.inl (h3 ▸ List.mem_cons_self c t)
      · exact Or.inr h3

theorem buildLeafToType_keys_nodup {α : Type} [DecidableEq α]
    (tree_as_leaves : α → List α) (children : List α) :
    ((buildLeafToType tree_as_leaves children).map Prod.fst).Nodup :=
  buildFold_keys_nodup tree_as_leaves children [] (by simp)

theorem buildLeafToType_mem_keys {α : Type} [DecidableEq α]
    (tree_as_leaves : α → List α) (children : List α) (a : α) :
    a ∈ (buildLeafToType tree_as_leaves children).map Prod.fst
      ↔ ∃ c ∈ children, a ∈ tree_as_leaves c := by
  rw [buildLeafToType, buildFold_mem_keys]
  simp

/-- C2 counterexample leaf map: child 0 has descendant leaves 10 and 11,
child 1 has descendant leaf 12. -/
def cexLeaves : ℕ → List ℕ := fun c =>
  if c = 0 then [10, 11] else if c = 1 then [12] else []

/-- C2 counterexample mean-profile lookup. -/
def cexMean : ℕ → List ℚ := fun l => [(l : ℚ)]

/-- C2 counterexample: for a parent with two immediate children, one of
which has two descendant leaves, `assemble_query_data` builds a candidate
matrix with three rows (one per descendant leaf, types `[0, 0, 1]`), not
two rows (one per child) as the claim states. -/
theorem C2_counterexample :
    (assemble_query_data [[1, 2]] cexMean cexLeaves [0, 1]
        [0] [0]).reference_data.length = 3 ∧
      (assemble_query_data [[1, 2]] cexMean cexLeaves [0, 1]
        [0] [0]).reference_types = [0, 0, 1] ∧
      ([0, 1] : List ℕ).length = 2 ∧ (3 : ℕ) ≠ 2 := by
  refine ⟨?_, ?_, by decide, by decide⟩ <;> decide

/-- C2 (amended): for every internal node, the candidate matrix built by
`assemble_query_data` has exactly one row per distinct descendant leaf of
the node's immediate children (not one averaged row per child), and each
row is labeled with the immediate child from which that leaf descends. -/
theorem C2_amended_one_row_per_descendant_leaf
    {α : Type} [LinearOrder α] [Inhabited α]
    (full_query_data : List (List ℚ))
    (mean_profile_lookup : α → List ℚ)
    (tree_as_leaves : α → List α)
    (immediate_children : List α)
    (reference_markers query_markers : List ℕ) :
    (assemble_query_data full_query_data mean_profile_lookup
        tree_as_leaves immediate_children reference_markers
        query_markers).reference_data.length
      = ((immediate_children.map tree_as_leaves).flatten).dedup.length ∧
    (assemble_query_data full_query_data mean_profile_lookup
        tree_as_leaves immediate_children reference_markers
        query_markers).reference_types.length
      = ((immediate_children.map tree_as_leaves).flatten).dedup.length ∧
    ∀ t ∈ (assemble_query_data full_query_data mean_profile_lookup
        tree_as_leaves immediate_children reference_markers
        query_markers).reference_types, t ∈ immediate_children := by
  set cs := List.insertionSort (· ≤ ·) immediate_children with hcs
  set ltt := buildLeafToType tree_as_leaves cs with hltt
  have hkeys_nodup : (ltt.map Prod.fst).Nodup :=
    buildLeafToType_keys_nodup tree_as_leaves cs
  have hmem : ∀ a, a ∈ ltt.map Prod.fst
      ↔ a ∈ ((immediate_children.map tree_as_leaves).flatten).dedup := by
    intro a
    rw [hltt, buildLeafToType_mem_keys, List.mem_dedup,
      List.mem_flatten]
    constructor
    · rintro ⟨c, hc, ha⟩
      refine ⟨tree_as_leaves c, ?_, ha⟩
      exact List.mem_map_of_mem _ ((List.mem_insertionSort _).mp hc)
    · rintro ⟨l, hl, ha⟩
      obtain ⟨c, hc, rfl⟩ := List.mem_map.mp hl
      exact ⟨c, (List.mem_insertionSort _).mpr hc, ha⟩
  have hperm : (ltt.map Prod.fst).Perm
      ((immediate_children.map tree_as_leaves).flatten).dedup :=
    (List.perm_ext_iff_of_nodup hkeys_nodup
      (List.nodup_dedup _)).mpr hmem
  have hlen : (ltt.map Prod.fst).length
      = ((immediate_children.map tree_as_leaves).flatten).dedup.length :=
    hperm.length_eq
  have hsortlen : (List.insertionSort (· ≤ ·) (ltt.map Prod.fst)).length
      = (ltt.map Prod.fst).length := List.length_insertionSort _ _
  refine ⟨?_, ?_, ?_⟩
  · show ((List.insertionSort (· ≤ ·) (ltt.map Prod.fst)).map _).length
        = _
    rw [List.length_map, hsortlen, hlen]
  · show ((List.insertionSort (· ≤ ·) (ltt.map Prod.fst)).map _).length
        = _
    rw [List.length_map, hsortlen, hlen]
  · intro t ht
    replace ht : t ∈ (List.insertionSort (· ≤ ·) (ltt.map Prod.fst)).map
        (fun leaf => (((ltt.find? (fun kv => kv.1 = leaf)).map
          Prod.snd).getD default)) := ht
    obtain ⟨leaf, hleaf, hleaft⟩ := List.mem_map.mp ht
    have hleafmem : leaf ∈ ltt.map Prod.fst :=
      (List.mem_insertionSort _).mp hleaf
    have hfind : (ltt.find? (fun kv => kv.1 = leaf)).isSome := by
      rw [List.find?_isSome]
      obtain ⟨kv, hkv, hkv2⟩ := List.mem_map.mp hleafmem
      exact ⟨kv, hkv, by simpa using hkv2⟩
    obtain ⟨kv, hkv⟩ := Option.isSome_iff_exists.mp hfind
    have hkvmem : kv ∈ ltt := List.mem_of_find?_eq_some hkv
    have hval : kv.2 ∈ cs ∨ kv ∈ ([] : List (α × α)) :=
      buildFold_values tree_as_leaves cs kv [] (by simpa [hltt] using hkvmem)
    have hvc : kv.2 ∈ cs := by
      rcases hval with h | h
      · exact h
      · simp at h
    have ht2 : t = kv.2 := by
      rw [← hleaft, hkv]
      simp
    rw [ht2]
    exact (List.mem_insertionSort _).mp hvc

/-- Modelled from the spec: `load_csr` (the module `utils/sparse_utils.py`
is not in the sources).  Per §4.1: read `indptr[r0]..indptr[r1]`, take the
corresponding `data`/`indices` slice, and scatter it into a
zero-initialized dense buffer of shape `(r1-r0) × n_cols`. -/
def load_csr (r0 r1 n_cols : ℕ) (data : List ℚ)
    (indices indptr : List ℕ) : List (List ℚ) :=
  (List.range (r1 - r0)).map (fun k =>
    (List.range (indptr.getD (r0 + k + 1) 0 - indptr.getD (r0 + k) 0)).foldl
      (fun row j =>
        row.set (indices.getD (indptr.getD (r0 + k) 0 + j) 0)
          (data.getD (indptr.getD (r0 + k) 0 + j) 0))
      (List.replicate n_cols 0))

/-- The h5-backed state of `CSRRowIterator` from
`anndata_iterator/anndata_iterator.py`. -/
structure CSRRowIterator where
  data : List ℚ
  indices : List ℕ
  indptr : List ℕ
  n_rows : ℕ
  n_cols : ℕ
  row_chunk_size : ℕ

/-- `CSRRowIterator.__next__` acting on the cursor `r0`: raise
StopIteration (`none`) when `r0 ≥ n_rows`; otherwise yield
`(chunk, r0, r1)` with `r1 = min(n_rows, r0 + row_chunk_size)` and
advance the cursor to `r1`. -/
def csrNext (it : CSRRowIterator) (r0 : ℕ) :
    Option ((List (List ℚ)) × ℕ × ℕ) :=
  if it.n_rows ≤ r0 then none
  else
    some (load_csr r0 (min it.n_rows (r0 + it.row_chunk_size)) it.n_cols
        it.data it.indices it.indptr,
      r0, min it.n_rows (r0 + it.row_chunk_size))

/-- The triples yielded by iterating `csrNext` from cursor `r0`, with
explicit fuel (the python loop need not terminate when
`row_chunk_size = 0`). -/
def csrChunksAux (it : CSRRowIterator) : ℕ → ℕ →
    List ((List (List ℚ)) × ℕ × ℕ)
  | 0, _ => []
  | fuel + 1, r0 =>
    match csrNext it r0 with
    | none => []
    | some t => t :: csrChunksAux it fuel t.2.2

/-- The full iteration of `CSRRowIterator`, starting at row 0. -/
def csrChunks (it : CSRRowIterator) : List ((List (List ℚ)) × ℕ × ℕ) :=
  csrChunksAux it it.n_rows 0

theorem foldl_set_length {γ : Type} (idxf : γ → ℕ) (valf : γ → ℚ)
    (l : List γ) :
    ∀ row : List ℚ,
      (l.foldl (fun row j => row.set (idxf j) (valf j)) row).length
        = row.length := by
  induction l with
  | nil => intro row; simp
  | cons a t ih =>
    intro row
    rw [List.foldl_cons, ih]
    simp

theorem load_csr_shape (r0 r1 n_cols : ℕ) (data : List ℚ)
    (indices indptr : List ℕ) :
    (load_csr r0 r1 n_cols data indices indptr).length = r1 - r0 ∧
      ∀ row ∈ load_csr r0 r1 n_cols data indices indptr,
        row.length = n_cols := by
  constructor
  · simp [load_csr]
  · intro row hrow
    unfold load_csr at hrow
    obtain ⟨k, _, hk⟩ := List.mem_map.mp hrow
    rw [← hk, foldl_set_length]
    simp

theorem csrChunksAux_spec (it : CSRRowIterator)
    (hcs : 1 ≤ it.row_chunk_size) :
    ∀ (fuel r0 : ℕ), it.n_rows - r0 ≤ fuel →
      (((csrChunksAux it fuel r0).map
          (fun t => List.range' t.2.1 (t.2.2 - t.2.1))).flatten
        = List.range' r0 (it.n_rows - r0)) ∧
      (∀ t ∈ csrChunksAux it fuel r0,
        t.2.1 < t.2.2 ∧
        t.2.2 = min it.n_rows (t.2.1 + it.row_chunk_size) ∧
        t.1.length = t.2.2 - t.2.1 ∧
        ∀ row ∈ t.1, row.length = it.n_cols) := by
  intro fuel
  induction fuel with
  | zero =>
    intro r0 hr0
    have : it.n_rows - r0 = 0 := by omega
    rw [this]
    simp [csrChunksAux]
  | succ n ih =>
    intro r0 hr0
    by_cases hend : it.n_rows ≤ r0
    · have : it.n_rows - r0 = 0 := by omega
      rw [this]
      simp [csrChunksAux, csrNext, if_pos hend]
    · push_neg at hend
      have hnext : csrNext it r0
          = some (load_csr r0 (min it.n_rows (r0 + it.row_chunk_size))
              it.n_cols it.data it.indices it.indptr,
            r0, min it.n_rows (r0 + it.row_chunk_size)) := by
        unfold csrNext
        rw [if_neg (by omega)]
      set r1 := min it.n_rows (r0 + it.row_chunk_size) with hr1
      have hstep : csrChunksAux it (n + 1) r0
          = (load_csr r0 r1 it.n_cols it.data it.indices it.indptr,
              r0, r1) :: csrChunksAux it n r1 := by
        rw [csrChunksAux, hnext]
      have hr0r1 : r0 < r1 := by omega
      have hfuel : it.n_rows - r1 ≤ n := by omega
      obtain ⟨ihcov, ihprops⟩ := ih r1 hfuel
      constructor
      · rw [hstep]
        simp only [List.map_cons, List.flatten_cons]
        rw [ihcov]
        have harith : r0 + (r1 - r0) = r1 := by omega
        have := List.range'_append_1 r0 (r1 - r0) (it.n_rows - r1)
        rw [harith] at this
        rw [this]
        congr 1
        omega
      · intro t ht
        rw [hstep] at ht
        rcases List.mem_cons.mp ht with h | h
        · obtain ⟨hl, hrows⟩ := load_csr_shape r0 r1 it.n_cols
            it.data it.indices it.indptr
          rw [h]
          exact ⟨hr0r1, rfl, hl, hrows⟩
        · exact ihprops t h

/-- C7: with `row_chunk_size ≥ 1`, iterating `CSRRowIterator` yields
`(chunk, r0, r1)` triples whose row intervals start at 0, are
consecutive and ascending, and exactly cover `[0, n_rows)`; each chunk is
a dense `(r1-r0) × n_cols` array; and once the cursor reaches `n_rows`
the iterator raises StopIteration (returns `none`). -/
theorem C7_csr_iterator_covers_rows (it : CSRRowIterator)
    (hcs : 1 ≤ it.row_chunk_size) :
    (((csrChunks it).map
        (fun t => List.range' t.2.1 (t.2.2 - t.2.1))).flatten
      = List.range it.n_rows) ∧
      (∀ t ∈ csrChunks it,
        t.2.1 < t.2.2 ∧
        t.2.2 = min it.n_rows (t.2.1 + it.row_chunk_size) ∧
        t.1.length = t.2.2 - t.2.1 ∧
        ∀ row ∈ t.1, row.length = it.n_cols) ∧
      (∀ r0, it.n_rows ≤ r0 → csrNext it r0 = none) := by
  obtain ⟨hcov, hprops⟩ := csrChunksAux_spec it hcs it.n_rows 0 (by omega)
  refine ⟨?_, hprops, ?_⟩
  · rw [List.range_eq_range']
    simpa using hcov
  · intro r0 hr0
    unfold csrNext
    rw [if_pos hr0]

/-- A concrete 3 × 2 CSR matrix used by the C7 witness. -/
def cexIter : CSRRowIterator :=
  { data := [1, 2, 3], indices := [0, 1, 0], indptr := [0, 2, 2, 3],
    n_rows := 3, n_cols := 2, row_chunk_size := 2 }

/-- C7 witness. -/
theorem C7_csr_iterator_covers_rows_witness :
    (((csrChunks cexIter).map
        (fun t => List.range' t.2.1 (t.2.2 - t.2.1))).flatten
      = List.range cexIter.n_rows) ∧
      (∀ t ∈ csrChunks cexIter,
        t.2.1 < t.2.2 ∧
        t.2.2 = min cexIter.n_rows (t.2.1 + cexIter.row_chunk_size) ∧
        t.1.length = t.2.2 - t.2.1 ∧
        ∀ row ∈ t.1, row.length = cexIter.n_cols) ∧
      (∀ r0, cexIter.n_rows ≤ r0 → csrNext cexIter r0 = none) :=
  C7_csr_iterator_covers_rows cexIter (by decide)

/-- One per-cell, per-level assignment record of `run_type_assignment`. -/
structure AsgnRec (α : Type) where
  assignment : α
  bootstrapping_probability : ℚ
  avg_correlation : ℚ

/-- The taxonomy-tree interface used by `run_type_assignment`
(`TaxonomyTree.hierarchy`, `nodes_at_level`, `children`); `children none`
models `taxonomy_tree.children(None, None)`. -/
structure Taxonomy (α : Type) where
  hierarchy : List α
  nodesAtLevel : α → List α
  children : Option (α × α) → List α

/-- Build the `(level, node)` pair passed to `taxonomy_tree.children`
(`None` for the virtual root). -/
def mkPnode {α : Type} (parent_level parent_name : Option α) :
    Option (α × α) :=
  match parent_level, parent_name with
  | some pl, some nm => some (pl, nm)
  | _, _ => none

/-- Python-dict lookup `previously_assigned[parent_level].get(name, [])`:
the cells previously assigned to a named parent (empty when absent). -/
def lookupPrev {α : Type} [DecidableEq α]
    (prev : List (α × List ℕ)) (nm : α) : List ℕ :=
  ((prev.find? (fun kv => kv.1 = nm)).map Prod.snd).getD []

/-- `chosen_idx` of `run_type_assignment`: all cells for the virtual
root, else the cells previously assigned to this parent. -/
def chosenIdxOf {α : Type} [DecidableEq α] (n_cells : ℕ)
    (prev : List (α × List ℕ)) (parent_name : Option α) : List ℕ :=
  match parent_name with
  | none => List.range n_cells
  | some nm => lookupPrev prev nm

/-- The partition of `chosen_idx` by assigned cell type
(election.py lines 445-457): one entry per distinct assigned type,
holding the chosen cells that were assigned that type, in order. -/
def partitionByType {α : Type} [DecidableEq α]
    (chosen_idx : List ℕ) (assignment : List α) : List (α × List ℕ) :=
  assignment.dedup.map (fun c =>
    (c, (chosen_idx.zip assignment).filterMap
      (fun p => if p.2 = c then some p.1 else none)))

/-- Write each chosen cell's `(assignment, probability, correlation)`
record into the result at row `i_cell`, level position `child_idx`
(election.py lines 460-469). -/
def writeAssignments {α : Type} (child_idx : ℕ) (chosen_idx : List ℕ)
    (entries : List (α × ℚ × ℚ))
    (result : List (List (Option (AsgnRec α)))) :
    List (List (Option (AsgnRec α))) :=
  (chosen_idx.zip entries).foldl
    (fun res p =>
      res.set p.1 ((res.getD p.1 []).set child_idx
        (some ⟨p.2.1, p.2.2.1, p.2.2.2⟩)))
    result

/-- Python-dict writes `previously_assigned[child_level][celltype] = ...`
for each partition entry. -/
def mergePartition {α : Type} [DecidableEq α]
    (m : List (α × List ℕ)) (part : List (α × List ℕ)) :
    List (α × List ℕ) :=
  part.foldl (fun m2 p => assocSet m2 p.1 p.2) m

/-- Processing of one parent node inside `run_type_assignment`
(election.py lines 385-469).  The election over the marker data
(`_run_type_assignment`, which assembles query data and calls
`choose_node`) is abstracted as `chooser`, mapping the parent node and
the chosen cell indices to one `(assignment, probability, correlation)`
triple per chosen cell.  A parent with assigned cells but no children
raises (`Except.error`). -/
def processParent {α : Type} [LinearOrder α] [Inhabited α]
    (tree : Taxonomy α)
    (chooser : Option (α × α) → List ℕ → List (α × ℚ × ℚ))
    (n_cells : ℕ) (parent_level : Option α) (child_idx : ℕ)
    (prev : List (α × List ℕ))
    (st : (List (List (Option (AsgnRec α)))) × List (α × List ℕ))
    (parent_name : Option α) :
    Except String
      ((List (List (Option (AsgnRec α)))) × List (α × List ℕ)) :=
  let chosen_idx := chosenIdxOf n_cells prev parent_name
  if chosen_idx = [] then .ok st
  else
    let pnode := mkPnode parent_level parent_name
    let possible_children := tree.children pnode
    if 1 < possible_children.length then
      let entries := chooser pnode chosen_idx
      .ok (writeAssignments child_idx chosen_idx entries st.1,
        mergePartition st.2
          (partitionByType chosen_idx (entries.map Prod.fst)))
    else if possible_children.length = 1 then
      let c := possible_children.headD default
      let entries := chosen_idx.map (fun _ => (c, (1 : ℚ), (1 : ℚ)))
      .ok (writeAssignments child_idx chosen_idx entries st.1,
        mergePartition st.2
          (partitionByType chosen_idx (entries.map Prod.fst)))
    else
      .error "parent node has no children"

/-- Fold `processParent` over the sorted list of parent nodes at one
level, propagating the first error. -/
def processParents {α : Type} [LinearOrder α] [Inhabited α]
    (tree : Taxonomy α)
    (chooser : Option (α × α) → List ℕ → List (α × ℚ × ℚ))
    (n_cells : ℕ) (parent_level : Option α) (child_idx : ℕ)
    (prev : List (α × List ℕ)) :
    List (Option α) →
    ((List (List (Option (AsgnRec α)))) × List (α × List ℕ)) →
    Except String
      ((List (List (Option (AsgnRec α)))) × List (α × List ℕ))
  | [], st => .ok st
  | pn :: rest, st =>
    match processParent tree chooser n_cells parent_level child_idx
        prev st pn with
    | .error e => .error e
    | .ok st2 => processParents tree chooser n_cells parent_level
        child_idx prev rest st2

/-- The parent-node list for one level: `[None]` for the virtual root,
else the sorted nodes of the parent level (`k_list.sort()`). -/
def parentsAtLevel {α : Type} [LinearOrder α] (tree : Taxonomy α) :
    Option α → List (Option α)
  | none => [none]
  | some pl => (List.insertionSort (· ≤ ·) (tree.nodesAtLevel pl)).map some

/-- The level loop of `run_type_assignment`
(`for parent_level, child_level in zip(level_list[:-1], level_list[1:])`),
walking the remaining child levels.  `child_idx` is the position of the
current child level in the hierarchy; `prev` is
`previously_assigned[parent_level]`. -/
def runLevelsAux {α : Type} [LinearOrder α] [Inhabited α]
    (tree : Taxonomy α)
    (chooser : Option (α × α) → List ℕ → List (α × ℚ × ℚ))
    (n_cells : ℕ) :
    List α → Option α → ℕ → List (α × List ℕ) →
    List (List (Option (AsgnRec α))) →
    Except String (List (List (Option (AsgnRec α))))
  | [], _, _, _, result => .ok result
  | child_level :: rest, parent_level, child_idx, prev, result =>
    match processParents tree chooser n_cells parent_level child_idx prev
        (parentsAtLevel tree parent_level) (result, []) with
    | .error e => .error e
    | .ok st2 => runLevelsAux tree chooser n_cells rest (some child_level)
        (child_idx + 1) st2.2 st2.1

/-- `run_type_assignment` from `type_assignment/election.py`: start with
one all-`None` per-level record list per query cell and walk the
hierarchy top-down, classifying the cells of each parent among that
parent's children and partitioning them by winner for the next level. -/
def run_type_assignment {α : Type} [LinearOrder α] [Inhabited α]
    (tree : Taxonomy α)
    (chooser : Option (α × α) → List ℕ → List (α × ℚ × ℚ))
    (n_cells : ℕ) :
    Except String (List (List (Option (AsgnRec α)))) :=
  runLevelsAux tree chooser n_cells tree.hierarchy none 0 []
    (List.replicate n_cells (List.replicate tree.hierarchy.length none))

/-- One entry of the per-cell result: `result[i][level j]`. -/
def resultEntry {α : Type} (res : List (List (Option (AsgnRec α))))
    (i j : ℕ) : Option (AsgnRec α) :=
  (res.getD i []).getD j none

theorem getD_set_self {γ : Type} (l : List γ) (n : ℕ) (v d : γ)
    (h : n < l.length) : (l.set n v).getD n d = v := by
  rw [List.getD_eq_getElem _ _ (by simpa using h)]
  exact List.getElem_set_self (by simpa using h)

theorem getD_set_ne {γ : Type} (l : List γ) (n m : ℕ) (v d : γ)
    (h : n ≠ m) : (l.set n v).getD m d = l.getD m d := by
  by_cases hm : m < l.length
  · rw [List.getD_eq_getElem _ _ (by simpa using hm),
      List.getD_eq_getElem _ _ hm]
    exact List.getElem_set_ne h (by simpa using hm)
  · rw [List.getD_eq_default _ _ (by simpa using Nat.le_of_not_lt hm),
      List.getD_eq_default _ _ (Nat.le_of_not_lt hm)]

theorem foldlWrite_length {α : Type} (ci : ℕ) :
    ∀ (z : List (ℕ × (α × ℚ × ℚ)))
      (res : List (List (Option (AsgnRec α)))),
      (z.foldl (fun res p => res.set p.1 ((res.getD p.1 []).set ci
          (some ⟨p.2.1, p.2.2.1, p.2.2.2⟩))) res).length
        = res.length := by
  intro z
  induction z with
  | nil => intro res; simp
  | cons p rest ih =>
    intro res
    rw [List.foldl_cons, ih]
    simp

theorem foldlWrite_rowlen {α : Type} (ci K : ℕ) :
    ∀ (z : List (ℕ × (α × ℚ × ℚ)))
      (res : List (List (Option (AsgnRec α)))),
      (∀ row ∈ res, row.length = K) →
      ∀ row ∈ z.foldl (fun res p => res.set p.1 ((res.getD p.1 []).set ci
          (some ⟨p.2.1, p.2.2.1, p.2.2.2⟩))) res,
        row.length = K := by
  intro z
  induction z with
  | nil => intro res h; simpa using h
  | cons p rest ih =>
    intro res h
    rw [List.foldl_cons]
    apply ih
    intro row hrow
    by_cases hp : p.1 < res.length
    · rcases List.mem_or_eq_of_mem_set hrow with h2 | h2
      · exact h row h2
      · rw [h2]
        have : (res.getD p.1 []).length = K := by
          rw [List.getD_eq_getElem _ _ hp]
          exact h _ (List.getElem_mem hp)
        simpa using this
    · rw [List.set_eq_of_length_le (by omega)] at hrow
      exact h row hrow

theorem foldlWrite_getD_not_mem {α : Type} (ci : ℕ) :
    ∀ (z : List (ℕ × (α × ℚ × ℚ)))
      (res : List (List (Option (AsgnRec α)))) (i : ℕ),
      (∀ p ∈ z, p.1 ≠ i) →
      ((z.foldl (fun res p => res.set p.1 ((res.getD p.1 []).set ci
          (some ⟨p.2.1, p.2.2.1, p.2.2.2⟩))) res).getD i [])
        = res.getD i [] := by
  intro z
  induction z with
  | nil => intro res i _; rfl
  | cons p rest ih =>
    intro res i h
    rw [List.foldl_cons, ih _ _ (fun q hq => h q (List.mem_cons_of_mem _ hq))]
    exact getD_set_ne res p.1 i _ [] (h p (List.mem_cons_self p rest))

theorem foldlWrite_getD_level_ne {α : Type} (ci : ℕ) :
    ∀ (z : List (ℕ × (α × ℚ × ℚ)))
      (res : List (List (Option (AsgnRec α)))) (i j : ℕ),
      j ≠ ci →
      (((z.foldl (fun res p => res.set p.1 ((res.getD p.1 []).set ci
          (some ⟨p.2.1, p.2.2.1, p.2.2.2⟩))) res).getD i []).getD j none)
        = ((res.getD i []).getD j none) := by
  intro z
  induction z with
  | nil => intro res i j _; rfl
  | cons p rest ih =>
    intro res i j hj
    rw [List.foldl_cons, ih _ _ _ hj]
    by_cases hpi : p.1 = i
    · subst hpi
      by_cases hp : p.1 < res.length
      · rw [getD_set_self _ _ _ _ hp]
        exact getD_set_ne _ _ _ _ _ (fun h => hj h.symm)
      · rw [List.set_eq_of_length_le (by omega)]
    · rw [getD_set_ne _ _ _ _ _ hpi]

theorem foldlWrite_getD_at {α : Type} (ci : ℕ) :
    ∀ (z : List (ℕ × (α × ℚ × ℚ)))
      (res : List (List (Option (AsgnRec α)))) (k : ℕ)
      (hk : k < z.length),
      (z.map Prod.fst).Nodup →
      z[k].1 < res.length →
      ci < (res.getD z[k].1 []).length →
      (((z.foldl (fun res p => res.set p.1 ((res.getD p.1 []).set ci
          (some ⟨p.2.1, p.2.2.1, p.2.2.2⟩))) res).getD z[k].1 []).getD
          ci none)
        = some ⟨z[k].2.1, z[k].2.2.1, z[k].2.2.2⟩ := by
  intro z
  induction z with
  | nil => intro res k hk; simp at hk
  | cons p rest ih =>
    intro res k hk hnodup hlt hci
    rw [List.foldl_cons]
    cases k with
    | zero =>
      simp only [List.getElem_cons_zero] at hlt hci ⊢
      rw [List.map_cons] at hnodup
      have hrest : ∀ q ∈ rest, q.1 ≠ p.1 := by
        intro q hq
        have hp1 : p.1 ∉ rest.map Prod.fst := (List.nodup_cons.mp hnodup).1
        intro hcon
        exact hp1 (hcon ▸ List.mem_map_of_mem Prod.fst hq)
      rw [foldlWrite_getD_not_mem ci rest _ p.1 hrest]
      rw [getD_set_self _ _ _ _ hlt]
      rw [getD_set_self _ _ _ _ hci]
    | succ k2 =>
      have hk2 : k2 < rest.length := by simpa using hk
      rw [List.map_cons] at hnodup
      have hne : p.1 ≠ rest[k2].1 := by
        have hp1 : p.1 ∉ rest.map Prod.fst := (List.nodup_cons.mp hnodup).1
        intro hcon
        exact hp1 (hcon ▸ List.mem_map_of_mem Prod.fst
          (List.getElem_mem hk2))
      have hnodup2 : (rest.map Prod.fst).Nodup :=
        (List.nodup_cons.mp hnodup).2
      have hgetd : ((res.set p.1 ((res.getD p.1 []).set ci
          (some ⟨p.2.1, p.2.2.1, p.2.2.2⟩))).getD rest[k2].1 [])
          = res.getD rest[k2].1 [] :=
        getD_set_ne _ _ _ _ _ hne
      have hlt2 : rest[k2].1 < (res.set p.1 ((res.getD p.1 []).set ci
          (some ⟨p.2.1, p.2.2.1, p.2.2.2⟩))).length := by
        simpa using (by simpa using hlt : rest[k2].1 < res.length)
      have hci2 : ci < ((res.set p.1 ((res.getD p.1 []).set ci
          (some ⟨p.2.1, p.2.2.1, p.2.2.2⟩))).getD rest[k2].1 []).length := by
        rw [hgetd]
        simpa using hci
      have := ih _ k2 hk2 hnodup2 hlt2 hci2
      simpa using this

theorem partition_entry_mem {α : Type} [DecidableEq α]
    (chosen : List ℕ) (asgn : List α) (c : α) (i : ℕ) :
    (i ∈ (chosen.zip asgn).filterMap
        (fun p => if p.2 = c then some p.1 else none))
      ↔ ∃ k, ∃ (h1 : k < chosen.length) (h2 : k < asgn.length),
          chosen[k] = i ∧ asgn[k] = c := by
  rw [List.mem_filterMap]
  constructor
  · rintro ⟨p, hp, hpi⟩
    by_cases hc : p.2 = c
    · rw [if_pos hc] at hpi
      obtain ⟨k, hk, hzk⟩ := List.mem_iff_getElem.mp hp
      have hk1 : k < chosen.length := by
        have := hk
        rw [List.length_zip] at this
        omega
      have hk2 : k < asgn.length := by
        have := hk
        rw [List.length_zip] at this
        omega
      refine ⟨k, hk1, hk2, ?_, ?_⟩
      · rw [← Option.some_inj.mp hpi]
        rw [← hzk, List.getElem_zip]
      · rw [← hc, ← hzk, List.getElem_zip]
    · rw [if_neg hc] at hpi
      simp at hpi
  · rintro ⟨k, h1, h2, hc, ha⟩
    refine ⟨(chosen[k], asgn[k]), ?_, ?_⟩
    · have hk : k < (chosen.zip asgn).length := by
        rw [List.length_zip]
        omega
      have hzip : (chosen.zip asgn)[k] = (chosen[k], asgn[k]) :=
        List.getElem_zip
      rw [← hzip]
      exact List.getElem_mem hk
    · rw [if_pos ha, hc]

theorem partition_entry_sublist {α : Type} [DecidableEq α] (c : α) :
    ∀ (chosen : List ℕ) (asgn : List α),
      ((chosen.zip asgn).filterMap
        (fun p => if p.2 = c then some p.1 else none)).Sublist chosen := by
  intro chosen
  induction chosen with
  | nil => intro asgn; simp
  | cons a t ih =>
    intro asgn
    cases asgn with
    | nil => simp
    | cons b t2 =>
      rw [List.zip_cons_cons, List.filterMap_cons]
      by_cases hb : b = c
      · rw [if_pos hb]
        exact List.Sublist.cons₂ a (ih t2)
      · rw [if_neg hb]
        exact List.Sublist.cons a (ih t2)

theorem lookupPrev_eq_of_mem {α : Type} [DecidableEq α] :
    ∀ (prev : List (α × List ℕ)) (kv : α × List ℕ),
      kv ∈ prev → (prev.map Prod.fst).Nodup →
      lookupPrev prev kv.1 = kv.2 := by
  intro prev
  induction prev with
  | nil => intro kv h; simp at h
  | cons h0 t ih =>
    intro kv hmem hnodup
    rw [List.map_cons] at hnodup
    rcases List.mem_cons.mp hmem with h | h
    · subst h
      unfold lookupPrev
      rw [List.find?_cons_of_pos _ (by simp)]
      rfl
    · have hne : h0.1 ≠ kv.1 := by
        intro hcon
        have : kv.1 ∈ t.map Prod.fst := List.mem_map_of_mem Prod.fst h
        exact (List.nodup_cons.mp hnodup).1 (hcon ▸ this)
      unfold lookupPrev
      rw [List.find?_cons_of_neg _ (by simpa using hne)]
      exact ih kv h (List.nodup_cons.mp hnodup).2

theorem lookupPrev_mem {α : Type} [DecidableEq α]
    (prev : List (α × List ℕ)) (nm : α) (i : ℕ)
    (h : i ∈ lookupPrev prev nm) :
    ∃ kv ∈ prev, kv.1 = nm ∧ i ∈ kv.2 := by
  unfold lookupPrev at h
  cases hfind : prev.find? (fun kv => kv.1 = nm) with
  | none => rw [hfind] at h; simp at h
  | some kv =>
    rw [hfind] at h
    refine ⟨kv, List.mem_of_find?_eq_some hfind, ?_, by simpa using h⟩
    have := List.find?_some hfind
    simpa using this

theorem mergePartition_eq_append {α : Type} [DecidableEq α] :
    ∀ (part acc : List (α × List ℕ)),
      (∀ p ∈ part, p.1 ∉ acc.map Prod.fst) →
      (part.map Prod.fst).Nodup →
      mergePartition acc part = acc ++ part := by
  intro part
  induction part with
  | nil => intro acc _ _; simp [mergePartition]
  | cons p rest ih =>
    intro acc hfresh hnodup
    rw [List.map_cons] at hnodup
    have hstep : assocSet acc p.1 p.2 = acc ++ [p] := by
      unfold assocSet
      rw [if_neg]
      intro hcon
      obtain ⟨kv, hkv, hdec⟩ := List.any_eq_true.mp hcon
      have : kv.1 = p.1 := by simpa using hdec
      exact hfresh p (List.mem_cons_self p rest)
        (this ▸ List.mem_map_of_mem Prod.fst hkv)
    have hmerge : mergePartition acc (p :: rest)
        = mergePartition (acc ++ [p]) rest := by
      unfold mergePartition
      rw [List.foldl_cons, hstep]
    rw [hmerge, ih (acc ++ [p]) ?_ (List.nodup_cons.mp hnodup).2]
    · simp
    · intro q hq
      rw [List.map_append]
      intro hcon
      rcases List.mem_append.mp hcon with h | h
      · exact hfresh q (List.mem_cons_of_mem _ hq) h
      · have hq1 : q.1 = p.1 := by simpa using h
        have : q.1 ∈ rest.map Prod.fst := List.mem_map_of_mem Prod.fst hq
        exact (List.nodup_cons.mp hnodup).1 (hq1 ▸ this)

/-- Per-cell membership property of one `previously_assigned[child_level]`
entry while a level of `run_type_assignment` is being processed: the cell
is in range, its record at the child level carries the entry's cell type,
and (below the root) its parent-level record names a parent that has
already been processed (`∉ ps`), of which the cell type is a child. -/
def memProp {α : Type} (tree : Taxonomy α) (pl : Option α)
    (ci n_cells : ℕ) (res res0 : List (List (Option (AsgnRec α))))
    (ps : List (Option α)) (c : α) (i : ℕ) : Prop :=
  i < n_cells ∧
  (∃ r, resultEntry res i ci = some r ∧ r.assignment = c) ∧
  (∀ plv, pl = some plv →
    ∃ rp, resultEntry res0 i (ci - 1) = some rp ∧
      (some rp.assignment : Option α) ∉ ps ∧
      c ∈ tree.children (some (plv, rp.assignment)))

/-- Invariant of the parent fold inside one level of
`run_type_assignment`: `res0` is the result at level entry, `ps` the
parents still to process, `st` the current (result, partition) state. -/
def levelInv {α : Type} [DecidableEq α] (tree : Taxonomy α)
    (pl : Option α) (cl : α) (ci n_cells K : ℕ)
    (res0 : List (List (Option (AsgnRec α)))) (ps : List (Option α))
    (st : (List (List (Option (AsgnRec α)))) × List (α × List ℕ)) :
    Prop :=
  st.1.length = n_cells ∧
  (∀ row ∈ st.1, row.length = K) ∧
  (∀ i j, j ≠ ci → resultEntry st.1 i j = resultEntry res0 i j) ∧
  (st.2.map Prod.fst).Nodup ∧
  (∀ kv ∈ st.2, kv.1 ∈ tree.nodesAtLevel cl ∧ kv.2.Nodup ∧
    ∀ i ∈ kv.2, memProp tree pl ci n_cells st.1 res0 ps kv.1 i) ∧
  (∀ kv ∈ st.2, ∀ pn ∈ ps, kv.1 ∉ tree.children (mkPnode pl pn)) ∧
  (∀ i, i < n_cells → (resultEntry st.1 i ci).isSome →
    ∃ kv ∈ st.2, i ∈ kv.2)

theorem processParent_ok_shape {α : Type} [LinearOrder α] [Inhabited α]
    (tree : Taxonomy α)
    (chooser : Option (α × α) → List ℕ → List (α × ℚ × ℚ))
    (n_cells : ℕ) (pl : Option α) (ci : ℕ)
    (prev : List (α × List ℕ))
    (st stF : (List (List (Option (AsgnRec α)))) × List (α × List ℕ))
    (pn : Option α)
    (Hch : ∀ pnode idxs, 1 < (tree.children pnode).length →
      (chooser pnode idxs).length = idxs.length ∧
      ∀ e ∈ chooser pnode idxs, e.1 ∈ tree.children pnode)
    (hok : processParent tree chooser n_cells pl ci prev st pn
      = .ok stF) :
    (chosenIdxOf n_cells prev pn = [] ∧ stF = st) ∨
    (chosenIdxOf n_cells prev pn ≠ [] ∧ ∃ entries : List (α × ℚ × ℚ),
      entries.length = (chosenIdxOf n_cells prev pn).length ∧
      (∀ e ∈ entries, e.1 ∈ tree.children (mkPnode pl pn)) ∧
      stF = (writeAssignments ci (chosenIdxOf n_cells prev pn) entries
          st.1,
        mergePartition st.2 (partitionByType (chosenIdxOf n_cells prev pn)
          (entries.map Prod.fst)))) := by
  unfold processParent at hok
  by_cases hempty : chosenIdxOf n_cells prev pn = []
  · rw [if_pos hempty] at hok
    exact Or.inl ⟨hempty, by injection hok with h; exact h.symm⟩
  · rw [if_neg hempty] at hok
    right
    refine ⟨hempty, ?_⟩
    by_cases hgt : 1 < (tree.children (mkPnode pl pn)).length
    · rw [if_pos hgt] at hok
      obtain ⟨hlen, hmem⟩ :=
        Hch (mkPnode pl pn) (chosenIdxOf n_cells prev pn) hgt
      refine ⟨chooser (mkPnode pl pn) (chosenIdxOf n_cells prev pn),
        hlen, hmem, by injection hok with h; exact h.symm⟩
    · rw [if_neg hgt] at hok
      by_cases hone : (tree.children (mkPnode pl pn)).length = 1
      · rw [if_pos hone] at hok
        refine ⟨(chosenIdxOf n_cells prev pn).map
            (fun _ => ((tree.children (mkPnode pl pn)).headD default,
              (1 : ℚ), (1 : ℚ))), by simp, ?_,
          by injection hok with h; exact h.symm⟩
        intro e he
        obtain ⟨_, _, he⟩ := List.mem_map.mp he
        rw [← he]
        simp only
        cases hch : tree.children (mkPnode pl pn) with
        | nil => rw [hch] at hone; simp at hone
        | cons c0 t =>
          rw [hch] at hone
          simp at hone
          subst hone
          simp
      · rw [if_neg hone] at hok
        exact absurd hok (by simp)

theorem writeAssignments_length {α : Type} (ci : ℕ) (chosen : List ℕ)
    (entries : List (α × ℚ × ℚ))
    (res : List (List (Option (AsgnRec α)))) :
    (writeAssignments ci chosen entries res).length = res.length := by
  unfold writeAssignments
  apply foldlWrite_length

theorem writeAssignments_rowlen {α : Type} (ci K : ℕ) (chosen : List ℕ)
    (entries : List (α × ℚ × ℚ))
    (res : List (List (Option (AsgnRec α))))
    (h : ∀ row ∈ res, row.length = K) :
    ∀ row ∈ writeAssignments ci chosen entries res, row.length = K := by
  unfold writeAssignments
  exact foldlWrite_rowlen ci K _ res h

theorem writeAssignments_not_mem {α : Type} (ci : ℕ) (chosen : List ℕ)
    (entries : List (α × ℚ × ℚ))
    (res : List (List (Option (AsgnRec α)))) (i : ℕ)
    (h : i ∉ chosen) :
    (writeAssignments ci chosen entries res).getD i []
      = res.getD i [] := by
  unfold writeAssignments
  apply foldlWrite_getD_not_mem
  intro p hp hcon
  exact h (hcon ▸ (List.of_mem_zip hp).1)

theorem writeAssignments_level_ne {α : Type} (ci : ℕ) (chosen : List ℕ)
    (entries : List (α × ℚ × ℚ))
    (res : List (List (Option (AsgnRec α)))) (i j : ℕ) (hj : j ≠ ci) :
    resultEntry (writeAssignments ci chosen entries res) i j
      = resultEntry res i j := by
  unfold writeAssignments resultEntry
  exact foldlWrite_getD_level_ne ci _ res i j hj

theorem writeAssignments_at {α : Type} (ci : ℕ) (chosen : List ℕ)
    (entries : List (α × ℚ × ℚ))
    (res : List (List (Option (AsgnRec α)))) (k : ℕ)
    (hk : k < chosen.length) (hlen : entries.length = chosen.length)
    (hnodup : chosen.Nodup) (hlt : chosen[k] < res.length)
    (hci : ci < (res.getD chosen[k] []).length) :
    resultEntry (writeAssignments ci chosen entries res) chosen[k] ci
      = some ⟨(entries[k]).1, (entries[k]).2.1, (entries[k]).2.2⟩ := by
  have hzlen : (chosen.zip entries).length = chosen.length := by
    rw [List.length_zip]
    omega
  have hkz : k < (chosen.zip entries).length := by omega
  have hzk : (chosen.zip entries)[k] = (chosen[k], entries[k]) :=
    List.getElem_zip
  have hmapfst : (chosen.zip entries).map Prod.fst = chosen :=
    List.map_fst_zip _ _ (by omega)
  unfold writeAssignments resultEntry
  have := foldlWrite_getD_at ci (chosen.zip entries) res k hkz
    (by rw [hmapfst]; exact hnodup)
    (by rw [hzk]; exact hlt)
    (by rw [hzk]; exact hci)
  rw [hzk] at this
  exact this

theorem partition_cover {α : Type} [DecidableEq α] (chosen : List ℕ)
    (asgn : List α) (hlen : asgn.length = chosen.length) (k : ℕ)
    (hk : k < chosen.length) :
    ∃ kv ∈ partitionByType chosen asgn,
      kv.1 = asgn[k] ∧ chosen[k] ∈ kv.2 := by
  have hk2 : k < asgn.length := by omega
  refine ⟨(asgn[k], (chosen.zip asgn).filterMap
    (fun p => if p.2 = asgn[k] then some p.1 else none)), ?_, rfl, ?_⟩
  · unfold partitionByType
    apply List.mem_map_of_mem
    rw [List.mem_dedup]
    exact List.getElem_mem hk2
  · rw [partition_entry_mem]
    exact ⟨k, hk, hk2, rfl, rfl⟩

theorem partition_entry_props {α : Type} [DecidableEq α]
    (chosen : List ℕ) (asgn : List α) (kv : α × List ℕ)
    (h : kv ∈ partitionByType chosen asgn) :
    kv.1 ∈ asgn ∧ kv.2 = (chosen.zip asgn).filterMap
      (fun p => if p.2 = kv.1 then some p.1 else none) := by
  unfold partitionByType at h
  obtain ⟨c, hc, hkv⟩ := List.mem_map.mp h
  constructor
  · rw [← hkv]
    exact List.mem_dedup.mp hc
  · rw [← hkv]

theorem partition_keys {α : Type} [DecidableEq α] (chosen : List ℕ)
    (asgn : List α) :
    (partitionByType chosen asgn).map Prod.fst = asgn.dedup := by
  unfold partitionByType
  rw [List.map_map]
  exact List.map_id _

theorem chosenIdx_nodup {α : Type} [DecidableEq α] (n_cells : ℕ)
    (prev : List (α × List ℕ)) (pn : Option α)
    (Hprev : ∀ kv ∈ prev, (kv.2 : List ℕ).Nodup) :
    (chosenIdxOf n_cells prev pn).Nodup := by
  cases pn with
  | none =>
    unfold chosenIdxOf
    exact List.nodup_range n_cells
  | some nm =>
    show (lookupPrev prev nm).Nodup
    unfold lookupPrev
    cases hfind : prev.find? (fun kv => kv.1 = nm) with
    | none => exact List.nodup_nil
    | some kv => exact Hprev kv (List.mem_of_find?_eq_some hfind)

theorem chosenIdx_lt {α : Type} [DecidableEq α] (n_cells : ℕ)
    (prev : List (α × List ℕ)) (pn : Option α)
    (Hprev : ∀ kv ∈ prev, ∀ i ∈ (kv.2 : List ℕ), i < n_cells) :
    ∀ i ∈ chosenIdxOf n_cells prev pn, i < n_cells := by
  cases pn with
  | none =>
    intro i hi
    unfold chosenIdxOf at hi
    simpa using hi
  | some nm =>
    intro i hi
    obtain ⟨kv, hkv, _, hikv⟩ := lookupPrev_mem prev nm i hi
    exact Hprev kv hkv i hikv

theorem processParent_inv {α : Type} [LinearOrder α] [Inhabited α]
    (tree : Taxonomy α)
    (chooser : Option (α × α) → List ℕ → List (α × ℚ × ℚ))
    (n_cells K : ℕ) (pl : Option α) (cl : α) (ci : ℕ)
    (prev : List (α × List ℕ))
    (res0 : List (List (Option (AsgnRec α))))
    (psTail : List (Option α)) (pn : Option α)
    (st stF : (List (List (Option (AsgnRec α)))) × List (α × List ℕ))
    (Hch : ∀ pnode idxs, 1 < (tree.children pnode).length →
      (chooser pnode idxs).length = idxs.length ∧
      ∀ e ∈ chooser pnode idxs, e.1 ∈ tree.children pnode)
    (Hcl : ∀ c ∈ tree.children (mkPnode pl pn), c ∈ tree.nodesAtLevel cl)
    (HdisjTail : ∀ pn2 ∈ psTail, ∀ c ∈ tree.children (mkPnode pl pn),
      c ∉ tree.children (mkPnode pl pn2))
    (Hprev : ∀ kv ∈ prev, kv.2.Nodup ∧ ∀ i ∈ kv.2, i < n_cells ∧
      ∃ rp, resultEntry res0 i (ci - 1) = some rp ∧ rp.assignment = kv.1)
    (HpnNotTail : pn ∉ psTail)
    (Hshape : ∀ plv, pl = some plv → ∃ nm, pn = some nm)
    (Hroot : pl = none → st.2 = [])
    (hciK : ci < K)
    (Hinv : levelInv tree pl cl ci n_cells K res0 (pn :: psTail) st)
    (hok : processParent tree chooser n_cells pl ci prev st pn
      = .ok stF) :
    levelInv tree pl cl ci n_cells K res0 psTail stF ∧
      (∀ kv ∈ st.2, kv ∈ stF.2) ∧
      (∀ i ∈ chosenIdxOf n_cells prev pn, ∃ kv ∈ stF.2, i ∈ kv.2) := by
  obtain ⟨I1, I2, I3, I4, I5, I6, I7⟩ := Hinv
  rcases processParent_ok_shape tree chooser n_cells pl ci prev st stF pn
      Hch hok with ⟨hemp, hst⟩ | ⟨hne, entries, hlen, hmem, hst⟩
  · subst hst
    refine ⟨⟨I1, I2, I3, I4, ?_, ?_, I7⟩, fun kv h => h, ?_⟩
    · intro kv hkv
      obtain ⟨k1, k2, k3⟩ := I5 kv hkv
      refine ⟨k1, k2, fun i hi => ?_⟩
      obtain ⟨m1, m2, m3⟩ := k3 i hi
      refine ⟨m1, m2, fun plv hplv => ?_⟩
      obtain ⟨rp, r1, r2, r3⟩ := m3 plv hplv
      exact ⟨rp, r1, fun hcon => r2 (List.mem_cons_of_mem _ hcon), r3⟩
    · intro kv hkv pn2 hpn2
      exact I6 kv hkv pn2 (List.mem_cons_of_mem _ hpn2)
    · intro i hi
      rw [hemp] at hi
      simp at hi
  · have hchosen_nodup : (chosenIdxOf n_cells prev pn).Nodup :=
      chosenIdx_nodup n_cells prev pn (fun kv h => (Hprev kv h).1)
    have hchosen_lt : ∀ i ∈ chosenIdxOf n_cells prev pn, i < n_cells :=
      chosenIdx_lt n_cells prev pn
        (fun kv h i hi => ((Hprev kv h).2 i hi).1)
    have hasgnlen : (entries.map Prod.fst).length
        = (chosenIdxOf n_cells prev pn).length := by
      rw [List.length_map]
      exact hlen
    have hasgn_children : ∀ a ∈ entries.map Prod.fst,
        a ∈ tree.children (mkPnode pl pn) := by
      intro a ha
      obtain ⟨e, he, hea⟩ := List.mem_map.mp ha
      exact hea ▸ hmem e he
    have hfresh : ∀ p ∈ partitionByType (chosenIdxOf n_cells prev pn)
        (entries.map Prod.fst), p.1 ∉ st.2.map Prod.fst := by
      intro p hp hcon
      obtain ⟨kv0, hkv0, hkv0e⟩ := List.mem_map.mp hcon
      have hpc : p.1 ∈ tree.children (mkPnode pl pn) :=
        hasgn_children p.1 (partition_entry_props _ _ p hp).1
      exact I6 kv0 hkv0 pn (List.mem_cons_self pn psTail)
        (hkv0e ▸ hpc)
    have hpartnodup : ((partitionByType (chosenIdxOf n_cells prev pn)
        (entries.map Prod.fst)).map Prod.fst).Nodup := by
      rw [partition_keys]
      exact List.nodup_dedup _
    have hmerge : mergePartition st.2
        (partitionByType (chosenIdxOf n_cells prev pn)
          (entries.map Prod.fst))
        = st.2 ++ partitionByType (chosenIdxOf n_cells prev pn)
          (entries.map Prod.fst) :=
      mergePartition_eq_append _ st.2 hfresh hpartnodup
    rw [hmerge] at hst
    subst hst
    have hold_not_chosen : ∀ kv ∈ st.2, ∀ i ∈ kv.2,
        i ∉ chosenIdxOf n_cells prev pn := by
      intro kv hkv i hikv hichosen
      cases hpl : pl with
      | none =>
        rw [Hroot hpl] at hkv
        simp at hkv
      | some plv =>
        obtain ⟨nm, hnm⟩ := Hshape plv hpl
        subst hnm
        have hichosen2 : i ∈ lookupPrev prev nm := hichosen
        obtain ⟨kvp, hkvp, hkvp1, hikvp⟩ :=
          lookupPrev_mem prev nm i hichosen2
        obtain ⟨_, hrpx⟩ := (Hprev kvp hkvp).2 i hikvp
        obtain ⟨rpp, hrpp1, hrpp2⟩ := hrpx
        obtain ⟨_, _, h3⟩ := (I5 kv hkv).2.2 i hikv
        obtain ⟨rp, r1, r2, r3⟩ := h3 plv hpl
        rw [hrpp1] at r1
        have hreq : rpp = rp := by
          injection r1
        apply r2
        rw [← hreq, hrpp2, hkvp1]
        exact List.mem_cons_self _ _
    refine ⟨⟨?_, ?_, ?_, ?_, ?_, ?_, ?_⟩, ?_, ?_⟩
    · rw [writeAssignments_length]
      exact I1
    · exact writeAssignments_rowlen _ _ _ _ _ I2
    · intro i j hj
      rw [writeAssignments_level_ne _ _ _ _ _ _ hj]
      exact I3 i j hj
    · rw [List.map_append]
      apply List.Nodup.append I4 hpartnodup
      intro a ha hb
      obtain ⟨p, hp, hpa⟩ := List.mem_map.mp hb
      exact hfresh p hp (hpa ▸ ha)
    · intro kv hkv
      rcases List.mem_append.mp hkv with hold | hnew
      · obtain ⟨k1, k2, k3⟩ := I5 kv hold
        refine ⟨k1, k2, fun i hi => ?_⟩
        obtain ⟨m1, m2, m3⟩ := k3 i hi
        have hrow : (writeAssignments ci (chosenIdxOf n_cells prev pn)
            entries st.1).getD i [] = st.1.getD i [] :=
          writeAssignments_not_mem _ _ _ _ _
            (hold_not_chosen kv hold i hi)
        refine ⟨m1, ?_, fun plv hplv => ?_⟩
        · obtain ⟨r, hr1, hr2⟩ := m2
          refine ⟨r, ?_, hr2⟩
          unfold resultEntry at hr1 ⊢
          rw [hrow]
          exact hr1
        · obtain ⟨rp, r1, r2, r3⟩ := m3 plv hplv
          exact ⟨rp, r1, fun hcon => r2 (List.mem_cons_of_mem _ hcon), r3⟩
      · obtain ⟨hkey_asgn, hkv2⟩ := partition_entry_props _ _ kv hnew
        have hkey_child : kv.1 ∈ tree.children (mkPnode pl pn) :=
          hasgn_children kv.1 hkey_asgn
        refine ⟨Hcl kv.1 hkey_child, ?_, fun i hi => ?_⟩
        · rw [hkv2]
          exact (partition_entry_sublist kv.1 _ _).nodup hchosen_nodup
        · rw [hkv2] at hi
          rw [partition_entry_mem] at hi
          obtain ⟨k, h1, h2, hcik, hcia⟩ := hi
          have hiC : i ∈ chosenIdxOf n_cells prev pn :=
            hcik ▸ List.getElem_mem h1
          have hi_lt : i < n_cells := hchosen_lt i hiC
          have hval : resultEntry (writeAssignments ci
              (chosenIdxOf n_cells prev pn) entries st.1)
              (chosenIdxOf n_cells prev pn)[k] ci
              = some ⟨(entries[k]).1, (entries[k]).2.1,
                  (entries[k]).2.2⟩ := by
            apply writeAssignments_at _ _ _ _ _ h1 hlen hchosen_nodup
            · rw [I1]
              exact hcik ▸ hi_lt
            · have hmemrow : (chosenIdxOf n_cells prev pn)[k]
                  < st.1.length := by
                rw [I1]
                exact hcik ▸ hi_lt
              rw [List.getD_eq_getElem _ _ hmemrow]
              rw [I2 _ (List.getElem_mem hmemrow)]
              exact hciK
          have hasgneq : (entries[k]).1 = kv.1 := by
            have h2e : k < entries.length := by omega
            have : (entries.map Prod.fst)[k] = (entries[k]).1 :=
              List.getElem_map Prod.fst
            rw [← this, hcia]
          refine ⟨hi_lt, ⟨⟨(entries[k]).1, (entries[k]).2.1,
              (entries[k]).2.2⟩, ?_, hasgneq⟩, fun plv hplv => ?_⟩
          · rw [← hcik] at hval ⊢
            exact hval
          · obtain ⟨nm, hnm⟩ := Hshape plv hplv
            subst hnm
            have hiC2 : i ∈ lookupPrev prev nm := hiC
            obtain ⟨kvp, hkvp, hkvp1, hikvp⟩ :=
              lookupPrev_mem prev nm i hiC2
            obtain ⟨_, hrpx⟩ := (Hprev kvp hkvp).2 i hikvp
            obtain ⟨rpp, hrpp1, hrpp2⟩ := hrpx
            refine ⟨rpp, hrpp1, ?_, ?_⟩
            · rw [hrpp2, hkvp1]
              exact HpnNotTail
            · have : mkPnode pl (some nm) = some (plv, nm) := by
                rw [hplv]
                rfl
              rw [hrpp2, hkvp1, ← this]
              exact hkey_child
    · intro kv hkv pn2 hpn2
      rcases List.mem_append.mp hkv with hold | hnew
      · exact I6 kv hold pn2 (List.mem_cons_of_mem _ hpn2)
      · have hkey_child : kv.1 ∈ tree.children (mkPnode pl pn) :=
          hasgn_children kv.1 (partition_entry_props _ _ kv hnew).1
        exact HdisjTail pn2 hpn2 kv.1 hkey_child
    · intro i hi hsome
      by_cases hiC : i ∈ chosenIdxOf n_cells prev pn
      · obtain ⟨k, hk, hik⟩ := List.mem_iff_getElem.mp hiC
        obtain ⟨kv, hkvp, hkv1, hkv2⟩ := partition_cover
          (chosenIdxOf n_cells prev pn) (entries.map Prod.fst)
          hasgnlen k hk
        exact ⟨kv, List.mem_append_right _ hkvp, hik ▸ hkv2⟩
      · have hrow : (writeAssignments ci (chosenIdxOf n_cells prev pn)
            entries st.1).getD i [] = st.1.getD i [] :=
          writeAssignments_not_mem _ _ _ _ _ hiC
        unfold resultEntry at hsome
        rw [hrow] at hsome
        obtain ⟨kv, hkv, hikv⟩ := I7 i hi hsome
        exact ⟨kv, List.mem_append_left _ hkv, hikv⟩
    · intro kv hkv
      exact List.mem_append_left _ hkv
    · intro i hiC
      obtain ⟨k, hk, hik⟩ := List.mem_iff_getElem.mp hiC
      obtain ⟨kv, hkvp, hkv1, hkv2⟩ := partition_cover
        (chosenIdxOf n_cells prev pn) (entries.map Prod.fst)
        hasgnlen k hk
      exact ⟨kv, List.mem_append_right _ hkvp, hik ▸ hkv2⟩

theorem processParents_inv {α : Type} [LinearOrder α] [Inhabited α]
    (tree : Taxonomy α)
    (chooser : Option (α × α) → List ℕ → List (α × ℚ × ℚ))
    (n_cells K : ℕ) (pl : Option α) (cl : α) (ci : ℕ)
    (prev : List (α × List ℕ))
    (res0 : List (List (Option (AsgnRec α))))
    (Hch : ∀ pnode idxs, 1 < (tree.children pnode).length →
      (chooser pnode idxs).length = idxs.length ∧
      ∀ e ∈ chooser pnode idxs, e.1 ∈ tree.children pnode)
    (Hprev : ∀ kv ∈ prev, kv.2.Nodup ∧ ∀ i ∈ kv.2, i < n_cells ∧
      ∃ rp, resultEntry res0 i (ci - 1) = some rp ∧ rp.assignment = kv.1)
    (hciK : ci < K) :
    ∀ (ps : List (Option α))
      (st stF : (List (List (Option (AsgnRec α)))) × List (α × List ℕ)),
      ps.Nodup →
      (∀ pn ∈ ps, ∀ c ∈ tree.children (mkPnode pl pn),
        c ∈ tree.nodesAtLevel cl) →
      (∀ pn pn2, pn ∈ ps → pn2 ∈ ps → pn ≠ pn2 →
        ∀ c ∈ tree.children (mkPnode pl pn),
          c ∉ tree.children (mkPnode pl pn2)) →
      (∀ pn ∈ ps, ∀ plv, pl = some plv → ∃ nm, pn = some nm) →
      (pl = none → ps.length ≤ 1) →
      (pl = none → ps ≠ [] → st.2 = []) →
      levelInv tree pl cl ci n_cells K res0 ps st →
      processParents tree chooser n_cells pl ci prev ps st = .ok stF →
      levelInv tree pl cl ci n_cells K res0 [] stF ∧
        (∀ kv ∈ st.2, kv ∈ stF.2) ∧
        (∀ pn ∈ ps, ∀ i ∈ chosenIdxOf n_cells prev pn,
          ∃ kv ∈ stF.2, i ∈ kv.2) := by
  intro ps
  induction ps with
  | nil =>
    intro st stF _ _ _ _ _ _ hinv hok
    have hst : stF = st := by
      unfold processParents at hok
      injection hok with h
      exact h.symm
    subst hst
    refine ⟨hinv, fun kv h => h, ?_⟩
    intro pn hpn
    simp at hpn
  | cons pn rest ih =>
    intro st stF hnodup hcl hdisj hshape hroot1 hroot2 hinv hok
    unfold processParents at hok
    cases hstep : processParent tree chooser n_cells pl ci prev st pn with
    | error e =>
      rw [hstep] at hok
      simp at hok
    | ok st2 =>
      rw [hstep] at hok
      simp only at hok
      obtain ⟨hinv2, hpres2, hcov2⟩ := processParent_inv tree chooser
        n_cells K pl cl ci prev res0 rest pn st st2 Hch
        (hcl pn (List.mem_cons_self pn rest))
        (fun pn2 hpn2 c hc => hdisj pn pn2
          (List.mem_cons_self pn rest) (List.mem_cons_of_mem _ hpn2)
          (fun hcon => (List.nodup_cons.mp hnodup).1 (hcon ▸ hpn2)) c hc)
        Hprev
        (List.nodup_cons.mp hnodup).1
        (hshape pn (List.mem_cons_self pn rest))
        (fun hpl => hroot2 hpl (by simp))
        hciK hinv hstep
      have hrest1 : pl = none → rest.length ≤ 1 := by
        intro hpl
        have h := hroot1 hpl
        rw [List.length_cons] at h
        omega
      have hrest2 : pl = none → rest ≠ [] → st2.2 = [] := by
        intro hpl hne
        exfalso
        have h := hroot1 hpl
        rw [List.length_cons] at h
        have h0 : rest.length = 0 := by omega
        exact hne (List.length_eq_zero.mp h0)
      obtain ⟨hinvF, hpresF, hcovF⟩ := ih st2 stF
        (List.nodup_cons.mp hnodup).2
        (fun pn2 hpn2 => hcl pn2 (List.mem_cons_of_mem _ hpn2))
        (fun pn2 pn3 h2 h3 hne => hdisj pn2 pn3
          (List.mem_cons_of_mem _ h2) (List.mem_cons_of_mem _ h3) hne)
        (fun pn2 hpn2 => hshape pn2 (List.mem_cons_of_mem _ hpn2))
        hrest1 hrest2 hinv2 hok
      refine ⟨hinvF, ?_, ?_⟩
      · intro kv hkv
        exact hpresF kv (hpres2 kv hkv)
      · intro pn2 hpn2 i hi
        rcases List.mem_cons.mp hpn2 with h | h
        · subst h
          obtain ⟨kv, hkv, hikv⟩ := hcov2 i hi
          exact ⟨kv, hpresF kv hkv, hikv⟩
        · exact hcovF pn2 h i hi

/-- The `(parent_level, child_level)` pairs walked by the level loop:
`zip(level_list[:-1], level_list[1:])` with `level_list = [None] + hierarchy`. -/
def levelPairs {α : Type} (hierarchy : List α) : List (Option α × α) :=
  (none :: hierarchy.map some).zip hierarchy

/-- The last element of `done`, or `p0` when `done` is empty. -/
def lastOr {α : Type} (p0 : Option α) (done : List α) : Option α :=
  match done.getLast? with
  | none => p0
  | some x => some x

theorem lastOr_cons {α : Type} (p0 : Option α) (d : α) (ds : List α) :
    lastOr p0 (d :: ds) = lastOr (some d) ds := by
  cases ds with
  | nil => rfl
  | cons e es =>
    unfold lastOr
    rw [List.getLast?_cons_cons]
    cases h : (e :: es).getLast? with
    | none =>
      exfalso
      simp at h
    | some x => rfl

theorem mem_zip_lastOr {α : Type} :
    ∀ (done : List α) (p0 : Option α) (cl : α) (rest : List α),
      (lastOr p0 done, cl) ∈
        (p0 :: (done ++ cl :: rest).map some).zip (done ++ cl :: rest) := by
  intro done
  induction done with
  | nil =>
    intro p0 cl rest
    simp only [List.nil_append, List.map_cons, List.zip_cons_cons]
    exact List.mem_cons_self _ _
  | cons d ds ih =>
    intro p0 cl rest
    rw [lastOr_cons]
    simp only [List.cons_append, List.map_cons, List.zip_cons_cons]
    exact List.mem_cons_of_mem _ (ih (some d) cl rest)

theorem mem_levelPairs_split {α : Type} (hier done : List α) (cl : α)
    (rest : List α) (h : hier = done ++ cl :: rest) :
    (done.getLast?, cl) ∈ levelPairs hier := by
  have hlast : done.getLast? = lastOr none done := by
    unfold lastOr
    cases done.getLast? with
    | none => rfl
    | some x => rfl
  rw [h, hlast]
  unfold levelPairs
  exact mem_zip_lastOr done none cl rest

theorem getD_last_of_append {α : Type} [Inhabited α]
    (done l : List α) (plv : α) (h : done.getLast? = some plv) :
    (done ++ l).getD (done.length - 1) default = plv := by
  have hne : done ≠ [] := by
    intro hcon
    rw [hcon] at h
    simp at h
  have hlen : 0 < done.length := List.length_pos.mpr hne
  have hidx : done.length - 1 < done.length := by omega
  have hidx2 : done.length - 1 < (done ++ l).length := by
    rw [List.length_append]
    omega
  have hgl : done[done.length - 1] = plv := by
    have h2 := List.getLast?_eq_getElem? done
    rw [h, List.getElem?_eq_getElem hidx] at h2
    exact Option.some_inj.mp h2.symm
  rw [List.getD_eq_getElem _ _ hidx2]
  rw [List.getElem_append_left hidx]
  exact hgl

theorem runLevelsAux_spec {α : Type} [LinearOrder α] [Inhabited α]
    (tree : Taxonomy α)
    (chooser : Option (α × α) → List ℕ → List (α × ℚ × ℚ))
    (n_cells : ℕ)
    (Hch : ∀ pnode idxs, 1 < (tree.children pnode).length →
      (chooser pnode idxs).length = idxs.length ∧
      ∀ e ∈ chooser pnode idxs, e.1 ∈ tree.children pnode)
    (Hnodes : ∀ plv : α, (tree.nodesAtLevel plv).Nodup)
    (HchildLevel : ∀ p ∈ levelPairs tree.hierarchy,
      ∀ pn ∈ parentsAtLevel tree p.1,
      ∀ c ∈ tree.children (mkPnode p.1 pn), c ∈ tree.nodesAtLevel p.2)
    (Hdisjoint : ∀ plv : α, ∀ nm1 nm2 : α,
      nm1 ∈ tree.nodesAtLevel plv → nm2 ∈ tree.nodesAtLevel plv →
      nm1 ≠ nm2 → ∀ c ∈ tree.children (some (plv, nm1)),
        c ∉ tree.children (some (plv, nm2))) :
    ∀ (rem done : List α) (prev : List (α × List ℕ))
      (res0 final : List (List (Option (AsgnRec α)))),
      tree.hierarchy = done ++ rem →
      res0.length = n_cells →
      (∀ row ∈ res0, row.length = tree.hierarchy.length) →
      (∀ i, i < n_cells → ∀ j, j < done.length →
        (resultEntry res0 i j).isSome) →
      (∀ i, i < n_cells → ∀ j, done.length ≤ j →
        resultEntry res0 i j = none) →
      (∀ i, i < n_cells → ∀ j, j + 1 < done.length →
        ∀ r r2, resultEntry res0 i j = some r →
          resultEntry res0 i (j + 1) = some r2 →
          r2.assignment ∈ tree.children
            (some (tree.hierarchy.getD j default, r.assignment))) →
      (prev.map Prod.fst).Nodup →
      (∀ kv ∈ prev, kv.2.Nodup ∧
        (∀ plv, done.getLast? = some plv →
          kv.1 ∈ tree.nodesAtLevel plv) ∧
        ∀ i ∈ kv.2, i < n_cells ∧
          ∃ rp, resultEntry res0 i (done.length - 1) = some rp ∧
            rp.assignment = kv.1) →
      (done ≠ [] → ∀ i, i < n_cells → ∃ kv ∈ prev, i ∈ kv.2) →
      runLevelsAux tree chooser n_cells rem done.getLast? done.length
        prev res0 = .ok final →
      final.length = n_cells ∧
      (∀ row ∈ final, row.length = tree.hierarchy.length) ∧
      (∀ i, i < n_cells → ∀ j, j < tree.hierarchy.length →
        (resultEntry final i j).isSome) ∧
      (∀ i, i < n_cells → ∀ j, j + 1 < tree.hierarchy.length →
        ∀ r r2, resultEntry final i j = some r →
          resultEntry final i (j + 1) = some r2 →
          r2.assignment ∈ tree.children
            (some (tree.hierarchy.getD j default, r.assignment))) := by
  intro rem
  induction rem with
  | nil =>
    intro done prev res0 final hsplit h1 h2 h3 hnone h4 _ _ _ hok
    have hfin : final = res0 := by
      unfold runLevelsAux at hok
      injection hok with h
      exact h.symm
    subst hfin
    have hdone : done.length = tree.hierarchy.length := by
      rw [hsplit]
      simp
    refine ⟨h1, h2, ?_, ?_⟩
    · intro i hi j hj
      exact h3 i hi j (by omega)
    · intro i hi j hj
      exact h4 i hi j (by omega)
  | cons cl rest ih =>
    intro done prev res0 final hsplit h1 h2 h3 hnone h4 hprevnodup
      hprev hcover hok
    unfold runLevelsAux at hok
    cases hps : processParents tree chooser n_cells done.getLast?
        done.length prev (parentsAtLevel tree done.getLast?)
        (res0, []) with
    | error e =>
      rw [hps] at hok
      simp at hok
    | ok st2 =>
      rw [hps] at hok
      simp only at hok
      have hpair : (done.getLast?, cl) ∈ levelPairs tree.hierarchy :=
        mem_levelPairs_split tree.hierarchy done cl rest hsplit
      have hciK : done.length < tree.hierarchy.length := by
        rw [hsplit, List.length_append, List.length_cons]
        omega
      have hpsnodup : (parentsAtLevel tree done.getLast?).Nodup := by
        cases hpl : done.getLast? with
        | none => simp [parentsAtLevel]
        | some plv =>
          unfold parentsAtLevel
          apply List.Nodup.map (Option.some_injective α)
          exact ((List.perm_insertionSort _ _).nodup_iff).mpr (Hnodes plv)
      have hpsdisj : ∀ pn pn2,
          pn ∈ parentsAtLevel tree done.getLast? →
          pn2 ∈ parentsAtLevel tree done.getLast? → pn ≠ pn2 →
          ∀ c ∈ tree.children (mkPnode done.getLast? pn),
            c ∉ tree.children (mkPnode done.getLast? pn2) := by
        cases hpl : done.getLast? with
        | none =>
          intro pn pn2 hpn hpn2 hne
          simp [parentsAtLevel] at hpn hpn2
          subst hpn
          subst hpn2
          exact absurd rfl hne
        | some plv =>
          intro pn pn2 hpn hpn2 hne c hc
          unfold parentsAtLevel at hpn hpn2
          obtain ⟨nm1, hnm1, hpn1⟩ := List.mem_map.mp hpn
          obtain ⟨nm2, hnm2, hpn2e⟩ := List.mem_map.mp hpn2
          subst hpn1
          subst hpn2e
          have hn1 : nm1 ∈ tree.nodesAtLevel plv :=
            (List.mem_insertionSort _).mp hnm1
          have hn2 : nm2 ∈ tree.nodesAtLevel plv :=
            (List.mem_insertionSort _).mp hnm2
          have hnm : nm1 ≠ nm2 := by
            intro hcon
            exact hne (by rw [hcon])
          exact Hdisjoint plv nm1 nm2 hn1 hn2 hnm c hc
      have hshape : ∀ pn ∈ parentsAtLevel tree done.getLast?,
          ∀ plv, done.getLast? = some plv → ∃ nm, pn = some nm := by
        intro pn hpn plv hpl
        rw [hpl] at hpn
        unfold parentsAtLevel at hpn
        obtain ⟨nm, _, hnm⟩ := List.mem_map.mp hpn
        exact ⟨nm, hnm.symm⟩
      have hroot1 : done.getLast? = none →
          (parentsAtLevel tree done.getLast?).length ≤ 1 := by
        intro hpl
        rw [hpl]
        simp [parentsAtLevel]
      have hinv0 : levelInv tree done.getLast? cl done.length n_cells
          tree.hierarchy.length res0 (parentsAtLevel tree done.getLast?)
          (res0, []) := by
        refine ⟨h1, h2, fun i j _ => rfl, by simp, by simp, by simp, ?_⟩
        intro i hi hsome
        rw [hnone i hi done.length (le_refl _)] at hsome
        simp at hsome
      obtain ⟨hinvF, hpresF, hcovF⟩ := processParents_inv tree chooser
        n_cells tree.hierarchy.length done.getLast? cl done.length prev
        res0 Hch
        (fun kv hkv => ⟨(hprev kv hkv).1, (hprev kv hkv).2.2⟩)
        hciK (parentsAtLevel tree done.getLast?) (res0, []) st2
        hpsnodup
        (fun pn hpn => HchildLevel (done.getLast?, cl) hpair pn hpn)
        hpsdisj hshape hroot1 (fun _ _ => rfl) hinv0 hps
      obtain ⟨J1, J2, J3, J4, J5, J6, J7⟩ := hinvF
      have hcovAll : ∀ i, i < n_cells → ∃ kv ∈ st2.2, i ∈ kv.2 := by
        intro i hi
        by_cases hd : done = []
        · have hpl : done.getLast? = none := by
            rw [hd]
            rfl
          apply hcovF none
          · rw [hpl]
            simp [parentsAtLevel]
          · unfold chosenIdxOf
            exact List.mem_range.mpr hi
        · obtain ⟨plv, hplv⟩ : ∃ plv, done.getLast? = some plv := by
            cases hgl : done.getLast? with
            | none => exact absurd (List.getLast?_eq_none_iff.mp hgl) hd
            | some x => exact ⟨x, rfl⟩
          obtain ⟨kvp, hkvp, hikvp⟩ := hcover hd i hi
          have hkey : kvp.1 ∈ tree.nodesAtLevel plv :=
            (hprev kvp hkvp).2.1 plv hplv
          have hpn_mem : (some kvp.1)
              ∈ parentsAtLevel tree done.getLast? := by
            rw [hplv]
            unfold parentsAtLevel
            exact List.mem_map_of_mem some
              ((List.mem_insertionSort _).mpr hkey)
          have hchosen : i ∈ chosenIdxOf n_cells prev (some kvp.1) := by
            show i ∈ lookupPrev prev kvp.1
            rw [lookupPrev_eq_of_mem prev kvp hkvp hprevnodup]
            exact hikvp
          exact hcovF (some kvp.1) hpn_mem i hchosen
      have hfullCi : ∀ i, i < n_cells →
          (resultEntry st2.1 i done.length).isSome := by
        intro i hi
        obtain ⟨kv, hkv, hikv⟩ := hcovAll i hi
        obtain ⟨_, ⟨r, hr, _⟩, _⟩ := (J5 kv hkv).2.2 i hikv
        rw [hr]
        rfl
      have hlink : ∀ i, i < n_cells → done ≠ [] →
          ∀ r r2, resultEntry st2.1 i (done.length - 1) = some r →
            resultEntry st2.1 i done.length = some r2 →
            r2.assignment ∈ tree.children
              (some (tree.hierarchy.getD (done.length - 1) default,
                r.assignment)) := by
        intro i hi hd r r2 hr hr2
        obtain ⟨plv, hplv⟩ : ∃ plv, done.getLast? = some plv := by
          cases hgl : done.getLast? with
          | none => exact absurd (List.getLast?_eq_none_iff.mp hgl) hd
          | some x => exact ⟨x, rfl⟩
        obtain ⟨kv, hkv, hikv⟩ := hcovAll i hi
        obtain ⟨_, ⟨r2x, hr2x, hassign⟩, h3x⟩ := (J5 kv hkv).2.2 i hikv
        rw [hr2x] at hr2
        have hr2eq : r2x = r2 := by injection hr2
        obtain ⟨rp, hrp, _, hchild⟩ := h3x plv hplv
        have hci1 : done.length - 1 ≠ done.length := by
          have : done.length ≠ 0 := by
            intro hcon
            exact hd (List.length_eq_zero.mp hcon)
          omega
        rw [J3 i (done.length - 1) hci1, hrp] at hr
        have hreq : rp = r := by injection hr
        have hgetd : tree.hierarchy.getD (done.length - 1) default
            = plv := by
          rw [hsplit]
          exact getD_last_of_append done (cl :: rest) plv hplv
        rw [hgetd, ← hreq, ← hr2eq, hassign]
        exact hchild
      -- preconditions for the recursive call
      have hsplit2 : tree.hierarchy = (done ++ [cl]) ++ rest := by
        rw [hsplit]
        simp
      have hlen2 : (done ++ [cl]).length = done.length + 1 := by simp
      have hlast2 : (done ++ [cl]).getLast? = some cl :=
        List.getLast?_concat done
      have h3n : ∀ i, i < n_cells → ∀ j, j < (done ++ [cl]).length →
          (resultEntry st2.1 i j).isSome := by
        intro i hi j hj
        rw [hlen2] at hj
        by_cases hjc : j = done.length
        · subst hjc
          exact hfullCi i hi
        · rw [J3 i j hjc]
          exact h3 i hi j (by omega)
      have hnonen : ∀ i, i < n_cells → ∀ j, (done ++ [cl]).length ≤ j →
          resultEntry st2.1 i j = none := by
        intro i hi j hj
        rw [hlen2] at hj
        rw [J3 i j (by omega)]
        exact hnone i hi j (by omega)
      have h4n : ∀ i, i < n_cells → ∀ j, j + 1 < (done ++ [cl]).length →
          ∀ r r2, resultEntry st2.1 i j = some r →
            resultEntry st2.1 i (j + 1) = some r2 →
            r2.assignment ∈ tree.children
              (some (tree.hierarchy.getD j default, r.assignment)) := by
        intro i hi j hj r r2 hr hr2
        rw [hlen2] at hj
        by_cases hjc : j + 1 = done.length
        · have hd : done ≠ [] := by
            intro hcon
            rw [hcon] at hjc
            simp at hjc
          have hj2 : j = done.length - 1 := by omega
          subst hj2
          exact hlink i hi hd r r2 hr (by
            have : done.length - 1 + 1 = done.length := by omega
            rw [← this]
            exact hr2)
        · have hj1 : j ≠ done.length := by omega
          have hj2 : j + 1 ≠ done.length := hjc
          rw [J3 i j hj1] at hr
          rw [J3 i (j + 1) hj2] at hr2
          exact h4 i hi j (by omega) r r2 hr hr2
      have hprevn : ∀ kv ∈ st2.2, kv.2.Nodup ∧
          (∀ plv, (done ++ [cl]).getLast? = some plv →
            kv.1 ∈ tree.nodesAtLevel plv) ∧
          ∀ i ∈ kv.2, i < n_cells ∧
            ∃ rp, resultEntry st2.1 i ((done ++ [cl]).length - 1)
                = some rp ∧ rp.assignment = kv.1 := by
        intro kv hkv
        obtain ⟨hkey, hnd, hmem⟩ := J5 kv hkv
        refine ⟨hnd, ?_, ?_⟩
        · intro plv hplv
          rw [hlast2] at hplv
          have : plv = cl := by injection hplv with h; exact h.symm
          rw [this]
          exact hkey
        · intro i hi
          obtain ⟨hin, ⟨r, hr, hra⟩, _⟩ := hmem i hi
          refine ⟨hin, r, ?_, hra⟩
          rw [hlen2]
          simpa using hr
      have hcovern : done ++ [cl] ≠ [] → ∀ i, i < n_cells →
          ∃ kv ∈ st2.2, i ∈ kv.2 := fun _ => hcovAll
      exact ih (done ++ [cl]) st2.2 st2.1 final hsplit2 J1 J2 h3n
        hnonen h4n J4 hprevn hcovern
        (by rw [hlast2, hlen2]; exact hok)

theorem replicate_entry_none {α : Type} (n K i j : ℕ) :
    resultEntry (List.replicate n (List.replicate K
      (none : Option (AsgnRec α)))) i j = none := by
  unfold resultEntry
  have houter : (List.replicate n (List.replicate K
      (none : Option (AsgnRec α)))).getD i [] = [] ∨
      (List.replicate n (List.replicate K
        (none : Option (AsgnRec α)))).getD i []
        = List.replicate K none := by
    by_cases hi : i < n
    · right
      rw [List.getD_eq_getElem _ _ (by simpa using hi)]
      rw [List.getElem_replicate]
    · left
      rw [List.getD_eq_default _ _ (by simpa using Nat.le_of_not_lt hi)]
  rcases houter with h | h <;> rw [h]
  · rfl
  · by_cases hj : j < K
    · rw [List.getD_eq_getElem _ _ (by simpa using hj)]
      rw [List.getElem_replicate]
    · rw [List.getD_eq_default _ _ (by simpa using Nat.le_of_not_lt hj)]

/-- C10: on success, `run_type_assignment` returns exactly one result
record list per query cell (indexed by the cell's input row), every level
of the hierarchy of every cell carries a non-null assignment record, and
a parent reached by at least one cell that has no children makes
`run_type_assignment` fail with an error instead. -/
theorem C10_one_full_result_per_cell {α : Type} [LinearOrder α]
    [Inhabited α] (tree : Taxonomy α)
    (chooser : Option (α × α) → List ℕ → List (α × ℚ × ℚ))
    (n_cells : ℕ)
    (Hch : ∀ pnode idxs, 1 < (tree.children pnode).length →
      (chooser pnode idxs).length = idxs.length ∧
      ∀ e ∈ chooser pnode idxs, e.1 ∈ tree.children pnode)
    (Hnodes : ∀ plv : α, (tree.nodesAtLevel plv).Nodup)
    (HchildLevel : ∀ p ∈ levelPairs tree.hierarchy,
      ∀ pn ∈ parentsAtLevel tree p.1,
      ∀ c ∈ tree.children (mkPnode p.1 pn), c ∈ tree.nodesAtLevel p.2)
    (Hdisjoint : ∀ plv : α, ∀ nm1 nm2 : α,
      nm1 ∈ tree.nodesAtLevel plv → nm2 ∈ tree.nodesAtLevel plv →
      nm1 ≠ nm2 → ∀ c ∈ tree.children (some (plv, nm1)),
        c ∉ tree.children (some (plv, nm2)))
    (final : List (List (Option (AsgnRec α))))
    (hok : run_type_assignment tree chooser n_cells = .ok final) :
    final.length = n_cells ∧
      (∀ row ∈ final, row.length = tree.hierarchy.length) ∧
      (∀ i, i < n_cells → ∀ j, j < tree.hierarchy.length →
        (resultEntry final i j).isSome) ∧
      (∀ (pl : Option α) (ci : ℕ) (prev : List (α × List ℕ))
        (st : (List (List (Option (AsgnRec α)))) × List (α × List ℕ))
        (pn : Option α),
        chosenIdxOf n_cells prev pn ≠ [] →
        tree.children (mkPnode pl pn) = [] →
        processParent tree chooser n_cells pl ci prev st pn
          = .error "parent node has no children") := by
  obtain ⟨c1, c2, c3, _⟩ := runLevelsAux_spec tree chooser n_cells Hch
    Hnodes HchildLevel Hdisjoint tree.hierarchy [] []
    (List.replicate n_cells
      (List.replicate tree.hierarchy.length none)) final
    (by simp) (by simp) (by intro row hrow; simpa using
      (List.eq_of_mem_replicate hrow) ▸ List.length_replicate _ _)
    (by intro i _ j hj; simp at hj)
    (by intro i _ j _; exact replicate_entry_none _ _ _ _)
    (by intro i _ j hj; simp at hj)
    (by simp) (by simp) (by intro h; exact absurd rfl h) hok
  refine ⟨c1, c2, c3, ?_⟩
  intro pl ci prev st pn hne hz
  unfold processParent
  rw [if_neg hne]
  have h1 : ¬ (1 < (tree.children (mkPnode pl pn)).length) := by
    rw [hz]
    simp
  have h2 : ¬ ((tree.children (mkPnode pl pn)).length = 1) := by
    rw [hz]
    simp
  rw [if_neg h1, if_neg h2]

/-- C5: for every pair of consecutive hierarchy levels, a cell assigned
to node `c` at the parent level is assigned at the child level to one of
`c`'s children: `run_type_assignment` partitions each parent's cells by
winner and hands each partition to exactly that child, so assignments
always follow parent-child edges of the taxonomy. -/
theorem C5_assignment_follows_branch {α : Type} [LinearOrder α]
    [Inhabited α] (tree : Taxonomy α)
    (chooser : Option (α × α) → List ℕ → List (α × ℚ × ℚ))
    (n_cells : ℕ)
    (Hch : ∀ pnode idxs, 1 < (tree.children pnode).length →
      (chooser pnode idxs).length = idxs.length ∧
      ∀ e ∈ chooser pnode idxs, e.1 ∈ tree.children pnode)
    (Hnodes : ∀ plv : α, (tree.nodesAtLevel plv).Nodup)
    (HchildLevel : ∀ p ∈ levelPairs tree.hierarchy,
      ∀ pn ∈ parentsAtLevel tree p.1,
      ∀ c ∈ tree.children (mkPnode p.1 pn), c ∈ tree.nodesAtLevel p.2)
    (Hdisjoint : ∀ plv : α, ∀ nm1 nm2 : α,
      nm1 ∈ tree.nodesAtLevel plv → nm2 ∈ tree.nodesAtLevel plv →
      nm1 ≠ nm2 → ∀ c ∈ tree.children (some (plv, nm1)),
        c ∉ tree.children (some (plv, nm2)))
    (final : List (List (Option (AsgnRec α))))
    (hok : run_type_assignment tree chooser n_cells = .ok final) :
    ∀ i, i < n_cells → ∀ j, j + 1 < tree.hierarchy.length →
      ∀ r r2, resultEntry final i j = some r →
        resultEntry final i (j + 1) = some r2 →
        r2.assignment ∈ tree.children
          (some (tree.hierarchy.getD j default, r.assignment)) := by
  obtain ⟨_, _, _, c4⟩ := runLevelsAux_spec tree chooser n_cells Hch
    Hnodes HchildLevel Hdisjoint tree.hierarchy [] []
    (List.replicate n_cells
      (List.replicate tree.hierarchy.length none)) final
    (by simp) (by simp) (by intro row hrow; simpa using
      (List.eq_of_mem_replicate hrow) ▸ List.length_replicate _ _)
    (by intro i _ j hj; simp at hj)
    (by intro i _ j _; exact replicate_entry_none _ _ _ _)
    (by intro i _ j hj; simp at hj)
    (by simp) (by simp) (by intro h; exact absurd rfl h) hok
  exact c4

/-- Node list per level of the two-level witness taxonomy. -/
def cexNodes : ℕ → List ℕ := fun plv =>
  if plv = 0 then [10] else if plv = 1 then [20, 21] else []

/-- Children map of the witness taxonomy. -/
def cexChildren : Option (ℕ × ℕ) → List ℕ := fun pnode =>
  match pnode with
  | none => [10]
  | some (l, n) => if l = 0 ∧ n = 10 then [20, 21] else []

/-- A two-level witness taxonomy: root child 10, whose children are 20
and 21. -/
def cexTree : Taxonomy ℕ :=
  { hierarchy := [0, 1], nodesAtLevel := cexNodes,
    children := cexChildren }

/-- Witness chooser: assign every cell to the first child. -/
def cexChooser : Option (ℕ × ℕ) → List ℕ → List (ℕ × ℚ × ℚ) :=
  fun pnode idxs => idxs.map (fun _ => ((cexChildren pnode).headD 0, 1, 1))

theorem headD_mem_of_pos {γ : Type} (l : List γ) (d : γ)
    (h : 0 < l.length) : l.headD d ∈ l := by
  cases l with
  | nil => simp at h
  | cons a t => simp

theorem cex_Hch : ∀ pnode idxs, 1 < (cexTree.children pnode).length →
    (cexChooser pnode idxs).length = idxs.length ∧
    ∀ e ∈ cexChooser pnode idxs, e.1 ∈ cexTree.children pnode := by
  intro pnode idxs hlen
  refine ⟨by simp [cexChooser], ?_⟩
  intro e he
  obtain ⟨_, _, he⟩ := List.mem_map.mp he
  rw [← he]
  exact headD_mem_of_pos _ _ (by omega)

theorem cex_Hnodes : ∀ plv : ℕ, (cexTree.nodesAtLevel plv).Nodup := by
  intro plv
  show (cexNodes plv).Nodup
  unfold cexNodes
  split
  · decide
  · split
    · decide
    · decide

theorem cex_HchildLevel : ∀ p ∈ levelPairs cexTree.hierarchy,
    ∀ pn ∈ parentsAtLevel cexTree p.1,
    ∀ c ∈ cexTree.children (mkPnode p.1 pn),
      c ∈ cexTree.nodesAtLevel p.2 := by
  decide

theorem cex_Hdisjoint : ∀ plv nm1 nm2 : ℕ,
    nm1 ∈ cexTree.nodesAtLevel plv → nm2 ∈ cexTree.nodesAtLevel plv →
    nm1 ≠ nm2 → ∀ c ∈ cexTree.children (some (plv, nm1)),
      c ∉ cexTree.children (some (plv, nm2)) := by
  intro plv nm1 nm2 h1 h2 hne c hc hc2
  by_cases hp0 : plv = 0
  · subst hp0
    have e1 : nm1 = 10 := by simpa [cexTree, cexNodes] using h1
    have e2 : nm2 = 10 := by simpa [cexTree, cexNodes] using h2
    exact hne (e1.trans e2.symm)
  · by_cases hp1 : plv = 1
    · subst hp1
      simp [cexTree, cexChildren] at hc
    · simp [cexTree, cexNodes, hp0, hp1] at h1

theorem cex_run : run_type_assignment cexTree cexChooser 2
    = .ok [[some ⟨10, 1, 1⟩, some ⟨20, 1, 1⟩],
           [some ⟨10, 1, 1⟩, some ⟨20, 1, 1⟩]] := by
  rfl

/-- C10 witness. -/
theorem C10_one_full_result_per_cell_witness :
    ([[some (⟨10, 1, 1⟩ : AsgnRec ℕ), some ⟨20, 1, 1⟩],
      [some ⟨10, 1, 1⟩, some ⟨20, 1, 1⟩]].length = 2) ∧
      (∀ row ∈ [[some (⟨10, 1, 1⟩ : AsgnRec ℕ), some ⟨20, 1, 1⟩],
        [some ⟨10, 1, 1⟩, some ⟨20, 1, 1⟩]],
        row.length = cexTree.hierarchy.length) ∧
      (∀ i, i < 2 → ∀ j, j < cexTree.hierarchy.length →
        (resultEntry [[some (⟨10, 1, 1⟩ : AsgnRec ℕ), some ⟨20, 1, 1⟩],
          [some ⟨10, 1, 1⟩, some ⟨20, 1, 1⟩]] i j).isSome) ∧
      (∀ (pl : Option ℕ) (ci : ℕ) (prev : List (ℕ × List ℕ))
        (st : (List (List (Option (AsgnRec ℕ)))) × List (ℕ × List ℕ))
        (pn : Option ℕ),
        chosenIdxOf 2 prev pn ≠ [] →
        cexTree.children (mkPnode pl pn) = [] →
        processParent cexTree cexChooser 2 pl ci prev st pn
          = .error "parent node has no children") :=
  C10_one_full_result_per_cell cexTree cexChooser 2 cex_Hch cex_Hnodes
    cex_HchildLevel cex_Hdisjoint _ cex_run

/-- C5 witness. -/
theorem C5_assignment_follows_branch_witness :
    (⟨20, 1, 1⟩ : AsgnRec ℕ).assignment ∈ cexTree.children
      (some (cexTree.hierarchy.getD 0 default,
        (⟨10, 1, 1⟩ : AsgnRec ℕ).assignment)) :=
  C5_assignment_follows_branch cexTree cexChooser 2 cex_Hch cex_Hnodes
    cex_HchildLevel cex_Hdisjoint _ cex_run 0 (by decide) 0 (by decide)
    ⟨10, 1, 1⟩ ⟨20, 1, 1⟩ rfl rfl
